import Mathlib

/-!
# Verification of the `heap` package (array-backed binary heap + optimized variant)

Shallow embedding of the Go sources:
* `heap.go`     : `Heap[T]` with `Insert`, `Extract`, `heapifyUp`, `heapifyDown`.
* `optimized.go`: `OptimizedHeap[T]` with options, capacity growth and lazy heapification.
* `errors.go`   : the three error values.

Go slices are modelled as `List T` together with an explicit `capacity : Nat` field where
capacity matters (`OptimizedHeap`).  Go's `var zero T` is `default` of an `Inhabited`
instance.  Indexing `data[i]` is the total function `idx` (`List.getD · · default`); a
separate family of `Option`-returning ("checked") operations is used to prove that every
access performed by the code is in bounds.

The Go `for` loops of `heapifyUp`/`heapifyDown` are written with a structural fuel
parameter (an upper bound on the number of iterations, which the Go loops respect because
the moving index is strictly monotone and bounded by the array length).  The lemmas
`heapifyUp_eq` and `heapifyDown_eq` recover the exact loop-step equations, so the fuel is
invisible to all reasoning.
-/

namespace HeapVer

variable {T : Type} [Inhabited T]

/-- The `data[i]` for a Go slice: total indexing with the zero value out of range
(the code never indexes out of range; see the checked variants below). -/
def idx (l : List T) (i : Nat) : T := l.getD i default

/-- Go `h.data[i], h.data[j] = h.data[j], h.data[i]`. -/
def swapL (l : List T) (i j : Nat) : List T :=
  (l.set i (idx l j)).set j (idx l i)

/-- The `parentIndex` from the source: `(index - 1) / 2`.  The Go function returns `-1` for
the root, but it is only ever called under the guard `index > 0` in `heapifyUp`, so the
`Nat` version (where `(0-1)/2 = 0`) is an equivalent model. -/
def parentIndex (index : Nat) : Nat := (index - 1) / 2

/-- The `leftChildIndex` from the source: `2*index + 1`. -/
def leftChildIndex (index : Nat) : Nat := 2 * index + 1

/-- The `rightChildIndex` from the source: `2*index + 2`. -/
def rightChildIndex (index : Nat) : Nat := 2 * index + 2

/-- One round of the `heapifyUp` loop with a fuel bound; fuel `index + 1` always
suffices because `index` strictly decreases. -/
def heapifyUpAux (less : T → T → Bool) : Nat → List T → Nat → List T
  | 0, l, _ => l
  | fuel + 1, l, index =>
    if 0 < index then
      if less (idx l index) (idx l (parentIndex index)) then
        heapifyUpAux less fuel (swapL l index (parentIndex index)) (parentIndex index)
      else l
    else l

/-- The `heapifyUp` from the source: sift the element at `index` towards the root while it
has higher priority than its parent. -/
def heapifyUp (less : T → T → Bool) (l : List T) (index : Nat) : List T :=
  heapifyUpAux less (index + 1) l index

/-- The index the `heapifyDown` body selects (`current` after the two `if` statements):
the higher-priority child if it beats the element at `index`. -/
def downTarget (less : T → T → Bool) (l : List T) (index : Nat) : Nat :=
  let n := l.length
  let c1 :=
    if leftChildIndex index < n ∧ less (idx l (leftChildIndex index)) (idx l index) = true
    then leftChildIndex index else index
  if rightChildIndex index < n ∧ less (idx l (rightChildIndex index)) (idx l c1) = true
  then rightChildIndex index else c1

/-- The `heapifyDown` recursion with a fuel bound; fuel `l.length` always suffices because
the index strictly increases and stays below `l.length`. -/
def heapifyDownAux (less : T → T → Bool) : Nat → List T → Nat → List T
  | 0, l, _ => l
  | fuel + 1, l, index =>
    if downTarget less l index ≠ index then
      heapifyDownAux less fuel (swapL l index (downTarget less l index))
        (downTarget less l index)
    else l

/-- The `heapifyDown` from the source: compare the element at `index` with both children (when
present), promote the highest-priority of the three, and recurse at the vacated child. -/
def heapifyDown (less : T → T → Bool) (l : List T) (index : Nat) : List T :=
  heapifyDownAux less l.length l index

/-- The `Heap[T]` from the source: backing slice plus the priority comparator
(`less a b` = "a has higher priority than b"). -/
structure Heap (T : Type) where
  data : List T
  less : T → T → Bool

/-- The `New` from the source: empty heap with the given comparator. -/
def Heap.New (less : T → T → Bool) : Heap T := { data := [], less := less }

/-- The `NewMinHeap`: ascending comparator `a < b` over an ordered type. -/
def NewMinHeap (T : Type) [LinearOrder T] : Heap T :=
  Heap.New (fun a b => decide (a < b))

/-- The `NewMaxHeap`: descending comparator `a > b` over an ordered type. -/
def NewMaxHeap (T : Type) [LinearOrder T] : Heap T :=
  Heap.New (fun a b => decide (b < a))

/-- Data-level body of `Heap.Insert`: append, then sift the new last element up. -/
def insertData (less : T → T → Bool) (l : List T) (value : T) : List T :=
  heapifyUp less (l ++ [value]) ((l ++ [value]).length - 1)

/-- The `Heap.Insert` from the source (the Go method returns an always-`nil` error). -/
def Heap.Insert (h : Heap T) (value : T) : Heap T :=
  { h with data := insertData h.less h.data value }

/-- Data-level body of `Heap.Extract`: on the empty slice return the zero value and
`false`; otherwise save the root, move the last element to the root, shrink by one and
sift the new root down. -/
def extractData (less : T → T → Bool) (l : List T) : T × Bool × List T :=
  if l.length = 0 then (default, false, l)
  else
    let root := idx l 0
    let lastIndex := l.length - 1
    (root, true, heapifyDown less ((l.set 0 (idx l lastIndex)).take lastIndex) 0)

/-- The `Heap.Extract` from the source. -/
def Heap.Extract (h : Heap T) : T × Bool × Heap T :=
  let r := extractData h.less h.data
  (r.1, r.2.1, { h with data := r.2.2 })

/-- The `errors.go`: the three error values of the package. -/
inductive HeapError where
  | negativeCap
  | zeroCap
  | capacityReached
deriving DecidableEq

/-- The Go error strings. -/
def HeapError.message : HeapError → String
  | .negativeCap => "heap: capacity cannot be negative"
  | .zeroCap => "heap: capacity cannot be zero"
  | .capacityReached => "heap: capacity reached and cannot grow"

/-- The option-settable fields of an `OptimizedHeap` before the backing heap is
created (the Go options mutate exactly these fields). -/
structure OHConfig where
  cap : Int
  canGrow : Bool
  useLazy : Bool
  growthFunc : Int → Int

/-- The `defaultOptimizedHeap` from the source: capacity 16, growable, eager, doubling
growth below 1024 and 1.25x (integer division) above. -/
def defaultOptimizedHeap : OHConfig :=
  { cap := 16
    canGrow := true
    useLazy := false
    growthFunc := fun currentCap =>
      if currentCap < 1024 then currentCap * 2 else currentCap + currentCap / 4 }

/-- The `Opt[T]` from the source: a mutation of the configuration fields. -/
def Opt : Type := OHConfig → OHConfig

/-- The `WithCapacity` from the source. -/
def WithCapacity (cap : Int) (canGrow : Bool) : Opt :=
  fun oh => { oh with cap := cap, canGrow := canGrow }

/-- The `WithGrowthFunction` from the source. -/
def WithGrowthFunction (growthFunc : Int → Int) : Opt :=
  fun oh => { oh with growthFunc := growthFunc }

/-- The `UseLazyHeapification` from the source. -/
def UseLazyHeapification : Opt := fun oh => { oh with useLazy := true }

/-- The `OptimizedHeap[T]` from the source.  `capacity` models the Go runtime value
`cap(oh.h.data)` (the requested capacity is only consulted at construction). -/
structure OptimizedHeap (T : Type) where
  h : Heap T
  capacity : Nat
  canGrow : Bool
  useLazy : Bool
  growthFunc : Int → Int
  heapified : Bool

/-- The `validateOptions` from the source. -/
def validateOptions (c : OHConfig) : Option HeapError :=
  if c.cap < 0 then some .negativeCap
  else if c.cap = 0 then some .zeroCap
  else none

/-- The `NewOptimizedHeap` from the source: apply the options in order to the defaults,
validate, then create the backing heap with the requested capacity pre-reserved. -/
def NewOptimizedHeap (less : T → T → Bool) (opts : List Opt) :
    Except HeapError (OptimizedHeap T) :=
  let c := opts.foldl (fun acc o => o acc) defaultOptimizedHeap
  match validateOptions c with
  | some e => .error e
  | none =>
      .ok { h := { data := [], less := less }
            capacity := c.cap.toNat
            canGrow := c.canGrow
            useLazy := c.useLazy
            growthFunc := c.growthFunc
            heapified := false }

/-- The `insertOnly` from the source: a bare Go `append`.  When the slice is at capacity the
Go runtime reallocates to an implementation-defined larger capacity; that policy is the
parameter `appendCap` (the language specification fixes no particular value). -/
def OptimizedHeap.insertOnly (appendCap : Nat → Nat) (oh : OptimizedHeap T) (value : T) :
    OptimizedHeap T :=
  { oh with
    h := { oh.h with data := oh.h.data ++ [value] }
    capacity := if oh.capacity < oh.h.data.length + 1 then appendCap oh.capacity
                else oh.capacity }

/-- The `OptimizedHeap.Insert` from the source.  The pair returns the post-state (Go mutates
the receiver) and the returned error. -/
def OptimizedHeap.Insert (appendCap : Nat → Nat) (oh : OptimizedHeap T) (value : T) :
    OptimizedHeap T × Option HeapError :=
  if !oh.canGrow && decide (oh.capacity ≤ oh.h.data.length) then
    (oh, some .capacityReached)
  else if oh.useLazy then
    ({ oh.insertOnly appendCap value with heapified := false }, none)
  else
    let oh2 :=
      if oh.h.data.length = oh.capacity then
        { oh with capacity :=
            let newCap := oh.growthFunc (oh.capacity : Int)
            if newCap ≤ (oh.capacity : Int) then oh.capacity + 1 else newCap.toNat }
      else oh
    ({ oh2 with h := oh2.h.Insert value }, none)

/-- The `shouldBuildHeap` from the source. -/
def OptimizedHeap.shouldBuildHeap (oh : OptimizedHeap T) : Bool :=
  !oh.heapified && decide (0 < oh.h.data.length)

/-- The loop of `buildHeap`: sift down each index from `k - 1` down to `0`. -/
def heapifyRange (less : T → T → Bool) : Nat → List T → List T
  | 0, l => l
  | k + 1, l => heapifyRange less k (heapifyDown less l k)

/-- Data-level body of `buildHeap`: bottom-up heap construction, sifting down every
index from `n/2 - 1` down to `0`. -/
def buildHeapData (less : T → T → Bool) (l : List T) : List T :=
  heapifyRange less (l.length / 2) l

/-- The `buildHeap` from the source. -/
def OptimizedHeap.buildHeap (oh : OptimizedHeap T) : OptimizedHeap T :=
  { oh with h := { oh.h with data := buildHeapData oh.h.less oh.h.data } }

/-- The `OptimizedHeap.Extract` from the source: in lazy mode rebuild first when needed,
then delegate to the wrapped heap's `Extract`. -/
def OptimizedHeap.Extract (oh : OptimizedHeap T) : T × Bool × OptimizedHeap T :=
  let oh1 :=
    if oh.useLazy && oh.shouldBuildHeap then { oh.buildHeap with heapified := true }
    else oh
  let r := oh1.h.Extract
  (r.1, r.2.1, { oh1 with h := r.2.2 })

/-- A call against the public surface: `Insert(v)` or `Extract()`. -/
inductive HOp (T : Type) where
  | ins : T → HOp T
  | ext : HOp T

/-- Run a sequence of calls against a plain `Heap`. -/
def Heap.runOps (h : Heap T) : List (HOp T) → Heap T
  | [] => h
  | .ins v :: rest => (h.Insert v).runOps rest
  | .ext :: rest => (h.Extract).2.2.runOps rest

/-- Run a sequence of calls against an `OptimizedHeap`, collecting the `(value, found)`
results of the `Extract` calls in order. -/
def OptimizedHeap.runOps (appendCap : Nat → Nat) :
    OptimizedHeap T → List (HOp T) → List (T × Bool) × OptimizedHeap T
  | oh, [] => ([], oh)
  | oh, .ins v :: rest => (OptimizedHeap.Insert appendCap oh v).1.runOps appendCap rest
  | oh, .ext :: rest =>
      let r := oh.Extract
      let s := r.2.2.runOps appendCap rest
      ((r.1, r.2.1) :: s.1, s.2)

/-- The `Extract` `n` times, collecting the `(value, found)` results and the final heap. -/
def drainN : Nat → Heap T → List (T × Bool) × Heap T
  | 0, h => ([], h)
  | n + 1, h =>
      let r := h.Extract
      let s := drainN n r.2.2
      ((r.1, r.2.1) :: s.1, s.2)

/-- Insert each value in order (the bulk-insert pattern of the tests). -/
def Heap.insertAll (h : Heap T) (vs : List T) : Heap T := vs.foldl Heap.Insert h

/-- The state of a freshly constructed `OptimizedHeap` with the given validated
configuration (the `.ok` payload of `NewOptimizedHeap`). -/
def freshOH (less : T → T → Bool) (c : Nat) (canGrow useLazy : Bool)
    (growthFunc : Int → Int) : OptimizedHeap T :=
  { h := { data := [], less := less }
    capacity := c
    canGrow := canGrow
    useLazy := useLazy
    growthFunc := growthFunc
    heapified := false }

/-! ## The subtree relation on indices

`Descendant j i` says index `i` lies in the subtree rooted at index `j` of the
breadth-first layout (children of `i` at `2i+1`, `2i+2`; parent of `i > 0` at
`(i-1)/2`). -/

inductive Descendant : Nat → Nat → Prop where
  | refl (i : Nat) : Descendant i i
  | left {j i : Nat} : Descendant (2 * j + 1) i → Descendant j i
  | right {j i : Nat} : Descendant (2 * j + 2) i → Descendant j i

/-! ## The heap property and comparator assumptions

The spec restricts comparators to total / strict-weak-order predicates; the two
properties actually needed are asymmetry and negative transitivity (together they give
transitivity and irreflexivity, the defining laws of a strict weak order). -/

/-- The `less` never holds in both directions. -/
def Asymm (less : T → T → Bool) : Prop :=
  ∀ a b, less a b = true → less b a = false

/-- Incomparability is transitive (negative transitivity). -/
def NegTrans (less : T → T → Bool) : Prop :=
  ∀ a b c, less a b = false → less b c = false → less a c = false

/-- The heap invariant of the spec: no non-root element has strictly higher priority
than its parent. -/
def HeapProp (less : T → T → Bool) (l : List T) : Prop :=
  ∀ i, 0 < i → i < l.length → less (idx l i) (idx l (parentIndex i)) = false

/-- The heap invariant restricted to the subtree rooted at `j`. -/
def SubHeapAt (less : T → T → Bool) (l : List T) (j : Nat) : Prop :=
  ∀ i, i < l.length → Descendant j i → i ≠ j →
    less (idx l i) (idx l (parentIndex i)) = false

/-! ## Correctness of `heapifyUp` -/

/-- Invariant of the `heapifyUp` loop at position `j`: all parent/child edges hold
except possibly the one from `j` to its parent, and the children of `j` do not even
beat `j`'s parent (so that swapping `j` with its parent cannot break their edges). -/
def UpInv (less : T → T → Bool) (l : List T) (j : Nat) : Prop :=
  (∀ i, 0 < i → i < l.length → i ≠ j →
    less (idx l i) (idx l (parentIndex i)) = false) ∧
  (∀ c, c < l.length → parentIndex c = j → 0 < c → 0 < j →
    less (idx l c) (idx l (parentIndex j)) = false)

/-! ## The lazy-window invariant (claim C2) -/

/-- State invariant of an `OptimizedHeap`: outside a lazy-pending window (i.e. when the
heap is eager or is marked rebuilt) the backing array satisfies the heap property. -/
def lazyWindowOK (less : T → T → Bool) (oh : OptimizedHeap T) : Prop :=
  oh.h.less = less ∧
  ((oh.useLazy = false ∨ oh.heapified = true) → HeapProp less oh.h.data)

def c5OH : OptimizedHeap ℕ :=
  { h := { data := [5], less := fun a b => decide (a < b) }
    capacity := 1
    canGrow := true
    useLazy := false
    growthFunc := fun c => c * 2
    heapified := false }

def c6OH : OptimizedHeap ℕ :=
  { h := { data := [7, 9], less := fun a b => decide (a < b) }
    capacity := 2
    canGrow := false
    useLazy := false
    growthFunc := fun c => c * 2
    heapified := false }

def c9OH : OptimizedHeap ℕ :=
  { h := { data := [5, 3, 1], less := fun a b => decide (a < b) }
    capacity := 4
    canGrow := true
    useLazy := true
    growthFunc := fun c => c * 2
    heapified := false }

def c4OH : OptimizedHeap ℕ :=
  { h := { data := [0], less := fun a b => decide (a < b) }
    capacity := 1
    canGrow := true
    useLazy := true
    growthFunc := fun _ => 50
    heapified := false }

/-! ## Checked (Option-valued) variants for bounds safety (claim C10)

These mirror the source operations access-for-access, but every slice read returns
`none` out of range instead of a total default.  The equivalence theorems show the
`none` branch is never taken on the operations' actual access patterns. -/

def swapLq (l : List T) (i j : Nat) : Option (List T) := do
  let a ← l[i]?
  let b ← l[j]?
  pure ((l.set i b).set j a)

def heapifyUpAuxChecked (less : T → T → Bool) : Nat → List T → Nat → Option (List T)
  | 0, l, _ => some l
  | fuel + 1, l, index =>
    if 0 < index then do
      let xi ← l[index]?
      let xp ← l[parentIndex index]?
      if less xi xp then do
        let l2 ← swapLq l index (parentIndex index)
        heapifyUpAuxChecked less fuel l2 (parentIndex index)
      else pure l
    else pure l

def heapifyUpChecked (less : T → T → Bool) (l : List T) (index : Nat) :
    Option (List T) :=
  heapifyUpAuxChecked less (index + 1) l index

def downTargetChecked (less : T → T → Bool) (l : List T) (index : Nat) : Option Nat :=
  Option.bind
    (if leftChildIndex index < l.length then do
      let a ← l[leftChildIndex index]?
      let b ← l[index]?
      pure (if less a b then leftChildIndex index else index)
    else pure index)
    (fun c1 =>
      if rightChildIndex index < l.length then do
        let a ← l[rightChildIndex index]?
        let b ← l[c1]?
        pure (if less a b then rightChildIndex index else c1)
      else pure c1)

def heapifyDownAuxChecked (less : T → T → Bool) : Nat → List T → Nat → Option (List T)
  | 0, l, _ => some l
  | fuel + 1, l, index => do
    let dt ← downTargetChecked less l index
    if dt ≠ index then do
      let l2 ← swapLq l index dt
      heapifyDownAuxChecked less fuel l2 dt
    else pure l

def heapifyDownChecked (less : T → T → Bool) (l : List T) (index : Nat) :
    Option (List T) :=
  heapifyDownAuxChecked less l.length l index

def insertDataChecked (less : T → T → Bool) (l : List T) (value : T) :
    Option (List T) :=
  heapifyUpChecked less (l ++ [value]) ((l ++ [value]).length - 1)

def extractDataChecked (less : T → T → Bool) (l : List T) :
    Option (T × Bool × List T) :=
  if l.length = 0 then some (default, false, l)
  else do
    let root ← l[0]?
    let xlast ← l[l.length - 1]?
    let l2 ← heapifyDownChecked less ((l.set 0 xlast).take (l.length - 1)) 0
    pure (root, true, l2)

def heapifyRangeChecked (less : T → T → Bool) : Nat → List T → Option (List T)
  | 0, l => some l
  | k + 1, l => do
    let l2 ← heapifyDownChecked less l k
    heapifyRangeChecked less k l2

def buildHeapDataChecked (less : T → T → Bool) (l : List T) : Option (List T) :=
  heapifyRangeChecked less (l.length / 2) l

/-! ## Claim C3: lazy vs. eager extraction order -/

def c3Less : ℕ → ℕ → Bool := fun a b => decide (a / 2 < b / 2)

def c3Ops : List (HOp ℕ) := [.ins 2, .ins 3, .ins 0, .ins 1, .ext]

def c3Eager : OptimizedHeap ℕ := freshOH c3Less 10 true false (fun c => c * 2)

def c3Lazy : OptimizedHeap ℕ := freshOH c3Less 10 true true (fun c => c * 2)

/-- Ties force equality: distinct elements are always comparable (a strict total
order).  This is the additional hypothesis the amended C3 needs. -/
def TieEq (less : T → T → Bool) : Prop :=
  ∀ a b, less a b = false → less b a = false → a = b

/-- Bisimulation between an eager-mode and a lazy-mode `OptimizedHeap` holding the same
multiset of values. -/
structure C3Inv (less : T → T → Bool) (e lz : OptimizedHeap T) : Prop where
  e_less : e.h.less = less
  lz_less : lz.h.less = less
  e_eager : e.useLazy = false
  lz_lazy : lz.useLazy = true
  perm : e.h.data.Perm lz.h.data
  e_heap : HeapProp less e.h.data
  lz_heap : lz.heapified = true → HeapProp less lz.h.data
  cg_eq : e.canGrow = lz.canGrow
  cap_eq : e.canGrow = false → e.capacity = lz.capacity

/-! ## Basic facts about `idx` and `swapL` -/

theorem idx_eq_getElem {l : List T} {i : Nat} (h : i < l.length) : idx l i = l[i] :=
  List.getD_eq_getElem l default h

theorem idx_default {l : List T} {i : Nat} (h : l.length ≤ i) : idx l i = default :=
  List.getD_eq_default l default h

theorem swapL_length (l : List T) (i j : Nat) : (swapL l i j).length = l.length := by
  simp [swapL]

theorem set_idx_self (l : List T) (i : Nat) : l.set i (idx l i) = l := by
  by_cases h : i < l.length
  · refine List.ext_getElem (by simp) ?_
    intro n h1 h2
    rcases eq_or_ne i n with rfl | hne
    · simpa [idx_eq_getElem h] using List.getElem_set_self (l := l) (by simpa using h2)
    · exact List.getElem_set_ne hne _
  · exact List.set_eq_of_length_le (by omega)

theorem idx_swapL_fst {l : List T} {i j : Nat} (hi : i < l.length) (hj : j < l.length) :
    idx (swapL l i j) i = idx l j := by
  rcases eq_or_ne i j with rfl | hne
  · rw [swapL, List.set_set, set_idx_self]
  · rw [swapL, idx_eq_getElem (by simpa using hi), List.getElem_set_ne (Ne.symm hne),
      List.getElem_set_self (by simpa using hi), idx_eq_getElem hj]

theorem idx_swapL_snd {l : List T} {i j : Nat} (hi : i < l.length) (hj : j < l.length) :
    idx (swapL l i j) j = idx l i := by
  rw [swapL, idx_eq_getElem (by simpa using hj), List.getElem_set_self (by simpa using hj),
    idx_eq_getElem hi]

theorem idx_swapL_other {l : List T} {i j k : Nat} (hki : k ≠ i) (hkj : k ≠ j) :
    idx (swapL l i j) k = idx l k := by
  by_cases hk : k < l.length
  · rw [swapL, idx_eq_getElem (by simpa using hk), List.getElem_set_ne (Ne.symm hkj),
      List.getElem_set_ne (Ne.symm hki), idx_eq_getElem hk]
  · rw [idx_default (by simpa [swapL] using le_of_not_lt hk), idx_default (le_of_not_lt hk)]

theorem idx_set_ne {l : List T} {i k : Nat} (h : i ≠ k) (a : T) :
    idx (l.set i a) k = idx l k := by
  by_cases hk : k < l.length
  · rw [idx_eq_getElem (by simpa using hk), List.getElem_set_ne h, idx_eq_getElem hk]
  · rw [idx_default (by simpa using le_of_not_lt hk), idx_default (le_of_not_lt hk)]

theorem idx_take {l : List T} {m k : Nat} (h : k < m) (h2 : k < l.length) :
    idx (l.take m) k = idx l k := by
  rw [idx_eq_getElem (by simp; omega), idx_eq_getElem h2]
  exact List.getElem_take _

theorem set_eq_take_cons_drop {l : List T} {i : Nat} (a : T) (h : i < l.length) :
    l.set i a = l.take i ++ a :: l.drop (i + 1) := by
  rw [List.set_eq_take_append_cons_drop, if_pos h]

theorem take_cons_decomp {l : List T} {i : Nat} (h : i < l.length) :
    l = l.take i ++ l[i] :: l.drop (i + 1) := by
  conv_lhs => rw [← List.take_append_drop i l, List.drop_eq_getElem_cons h]

theorem perm_swap_middle (B1 B2 C : List T) (x y : T) :
    List.Perm ((B1 ++ y :: B2) ++ x :: C) ((B1 ++ x :: B2) ++ y :: C) := by
  have h1 : (B1 ++ y :: B2) ++ x :: C = B1 ++ (y :: (B2 ++ x :: C)) := by simp
  have h2 : (B1 ++ x :: B2) ++ y :: C = B1 ++ (x :: (B2 ++ y :: C)) := by simp
  rw [h1, h2]
  refine List.Perm.append_left _ ?_
  refine List.Perm.trans (List.Perm.cons _ List.perm_middle) ?_
  refine List.Perm.trans (List.Perm.swap _ _ _) ?_
  exact List.Perm.cons _ List.perm_middle.symm

theorem swapL_perm {l : List T} {i j : Nat} (hi : i < l.length) (hj : j < l.length) :
    (swapL l i j).Perm l := by
  rcases eq_or_ne i j with rfl | hne
  · rw [swapL, List.set_set, set_idx_self]
  · have main : ∀ (l : List T) (i j : Nat), i < l.length → j < l.length → i < j →
        (swapL l i j).Perm l := by
      intro l i j hi hj hij
      have hij' : i ≠ j := by omega
      have hitj : i < (l.take j).length := by simp; omega
      rw [swapL, idx_eq_getElem hi, idx_eq_getElem hj, List.set_comm _ _ _ hij',
        set_eq_take_cons_drop _ hj, List.set_append, if_pos hitj,
        set_eq_take_cons_drop _ hitj]
      have hl : l = ((l.take j).take i ++ l[i] :: (l.take j).drop (i + 1)) ++
          l[j] :: l.drop (j + 1) := by
        conv_lhs => rw [take_cons_decomp hj]
        congr 1
        conv_lhs => rw [take_cons_decomp hitj]
        rw [List.getElem_take]
      conv_rhs => rw [hl]
      exact perm_swap_middle _ _ _ _ _
    rcases lt_or_gt_of_ne hne with hij | hij
    · exact main l i j hi hj hij
    · have hswap : swapL l i j = swapL l j i := by
        rw [swapL, swapL, List.set_comm _ _ _ hne]
      rw [hswap]
      exact main l j i hj hi hij

/-! ## Loop equations: the fuel parameter is invisible -/

theorem heapifyUpAux_fuel (less : T → T → Bool) :
    ∀ (f1 f2 : Nat) (l : List T) (index : Nat), index < f1 → index < f2 →
      heapifyUpAux less f1 l index = heapifyUpAux less f2 l index := by
  intro f1
  induction f1 with
  | zero => intro f2 l index h1; omega
  | succ f ih =>
    intro f2 l index h1 h2
    match f2, h2 with
    | f2 + 1, h2 =>
      show heapifyUpAux less (f + 1) l index = heapifyUpAux less (f2 + 1) l index
      simp only [heapifyUpAux]
      by_cases h0 : 0 < index
      · simp only [if_pos h0]
        by_cases hc : less (idx l index) (idx l (parentIndex index)) = true
        · simp only [if_pos hc]
          have hp : parentIndex index < index := by
            have := Nat.div_le_self (index - 1) 2
            simp only [parentIndex]; omega
          exact ih f2 _ _ (by omega) (by omega)
        · simp only [hc, if_neg, Bool.false_eq_true, not_false_iff]
      · simp only [if_neg h0]

/-- The `heapifyUp` loop equation, exactly as in the source: step once and continue at
the parent. -/
theorem heapifyUp_eq (less : T → T → Bool) (l : List T) (index : Nat) :
    heapifyUp less l index =
      if 0 < index then
        if less (idx l index) (idx l (parentIndex index)) then
          heapifyUp less (swapL l index (parentIndex index)) (parentIndex index)
        else l
      else l := by
  show heapifyUpAux less (index + 1) l index = _
  simp only [heapifyUpAux]
  by_cases h0 : 0 < index
  · simp only [if_pos h0]
    by_cases hc : less (idx l index) (idx l (parentIndex index)) = true
    · simp only [if_pos hc]
      refine heapifyUpAux_fuel less index (parentIndex index + 1) _ _ ?_ (by omega)
      have := Nat.div_le_self (index - 1) 2
      simp only [parentIndex]; omega
    · simp only [hc, Bool.false_eq_true, if_neg, not_false_iff]
  · simp only [if_neg h0]

theorem downTarget_gt {less : T → T → Bool} {l : List T} {index : Nat}
    (h : downTarget less l index ≠ index) :
    index < downTarget less l index ∧ downTarget less l index < l.length := by
  unfold downTarget at *
  simp only [leftChildIndex, rightChildIndex] at *
  split_ifs at * with h1 h2 h2 <;> first | omega | (exact ⟨by omega, by tauto⟩)

theorem heapifyDownAux_fuel (less : T → T → Bool) :
    ∀ (f1 f2 : Nat) (l : List T) (index : Nat),
      l.length - index ≤ f1 → l.length - index ≤ f2 →
      heapifyDownAux less f1 l index = heapifyDownAux less f2 l index := by
  intro f1
  induction f1 with
  | zero =>
    intro f2 l index h1 h2
    -- no fuel: the target must equal the index (the children are out of range)
    have hstop : downTarget less l index = index := by
      by_contra hne
      have := downTarget_gt hne
      omega
    cases f2 with
    | zero => rfl
    | succ f2 => simp [heapifyDownAux, hstop]
  | succ f ih =>
    intro f2 l index h1 h2
    cases f2 with
    | zero =>
      have hstop : downTarget less l index = index := by
        by_contra hne
        have := downTarget_gt hne
        omega
      simp [heapifyDownAux, hstop]
    | succ f2 =>
      simp only [heapifyDownAux]
      by_cases hne : downTarget less l index ≠ index
      · simp only [if_pos hne]
        have hb := downTarget_gt hne
        have hlen : (swapL l index (downTarget less l index)).length = l.length :=
          swapL_length ..
        exact ih f2 _ _ (by omega) (by omega)
      · simp only [if_neg hne]

/-- The `heapifyDown` recursion equation, exactly as in the source: if the
highest-priority element among `{index, left, right}` is a child, swap it up and recurse
at that child. -/
theorem heapifyDown_eq (less : T → T → Bool) (l : List T) (index : Nat) :
    heapifyDown less l index =
      if downTarget less l index ≠ index then
        heapifyDown less (swapL l index (downTarget less l index))
          (downTarget less l index)
      else l := by
  show heapifyDownAux less l.length l index = _
  rcases Nat.eq_zero_or_pos l.length with hz | hpos
  · have hstop : downTarget less l index = index := by
      by_contra hne
      have := downTarget_gt hne
      omega
    cases hzl : l.length with
    | zero => simp [heapifyDownAux, hstop]
    | succ n => omega
  · have : l.length = (l.length - 1) + 1 := by omega
    rw [this]
    simp only [heapifyDownAux]
    by_cases hne : downTarget less l index ≠ index
    · simp only [if_pos hne]
      have hb := downTarget_gt hne
      have hlen : (swapL l index (downTarget less l index)).length = l.length :=
        swapL_length ..
      show _ = heapifyDownAux less (swapL l index (downTarget less l index)).length _ _
      exact heapifyDownAux_fuel less _ _ _ _ (by omega) (by omega)
    · simp only [if_neg hne]

/-! ## Permutation facts -/

theorem heapifyUp_perm (less : T → T → Bool) :
    ∀ (index : Nat) (l : List T), index < l.length → (heapifyUp less l index).Perm l := by
  intro index
  induction index using Nat.strong_induction_on with
  | _ index ih =>
    intro l hi
    rw [heapifyUp_eq]
    by_cases h0 : 0 < index
    · simp only [if_pos h0]
      by_cases hc : less (idx l index) (idx l (parentIndex index)) = true
      · simp only [if_pos hc]
        have hp : parentIndex index < index := by
          have := Nat.div_le_self (index - 1) 2
          simp only [parentIndex]; omega
        have hpl : parentIndex index < l.length := by omega
        refine List.Perm.trans (ih _ hp _ ?_) (swapL_perm hi hpl)
        rw [swapL_length]; omega
      · simp only [hc, Bool.false_eq_true, if_neg, not_false_iff]
        exact List.Perm.refl l
    · simp only [if_neg h0]
      exact List.Perm.refl l

theorem heapifyDown_perm (less : T → T → Bool) :
    ∀ (k : Nat) (l : List T) (index : Nat), l.length - index ≤ k →
      (heapifyDown less l index).Perm l := by
  intro k
  induction k with
  | zero =>
    intro l index h
    have hstop : downTarget less l index = index := by
      by_contra hne
      have := downTarget_gt hne
      omega
    rw [heapifyDown_eq]
    simp only [hstop, ne_eq, not_true_eq_false, if_neg, not_false_iff, if_false]
    exact List.Perm.refl l
  | succ k ih =>
    intro l index h
    rw [heapifyDown_eq]
    by_cases hne : downTarget less l index ≠ index
    · simp only [if_pos hne]
      have hb := downTarget_gt hne
      have hil : index < l.length := by omega
      refine List.Perm.trans (ih _ _ ?_) (swapL_perm hil hb.2)
      rw [swapL_length]; omega
    · simp only [if_neg hne]
      exact List.Perm.refl l

theorem heapifyDown_perm' (less : T → T → Bool) (l : List T) (index : Nat) :
    (heapifyDown less l index).Perm l :=
  heapifyDown_perm less (l.length - index) l index le_rfl

theorem heapifyDown_length (less : T → T → Bool) (l : List T) (index : Nat) :
    (heapifyDown less l index).length = l.length :=
  (heapifyDown_perm' less l index).length_eq

theorem heapifyUp_length (less : T → T → Bool) {l : List T} {index : Nat}
    (h : index < l.length) : (heapifyUp less l index).length = l.length :=
  (heapifyUp_perm less index l h).length_eq

theorem insertData_perm (less : T → T → Bool) (l : List T) (v : T) :
    (insertData less l v).Perm (l ++ [v]) := by
  unfold insertData
  refine heapifyUp_perm less _ _ ?_
  simp

theorem heapifyRange_perm (less : T → T → Bool) :
    ∀ (k : Nat) (l : List T), (heapifyRange less k l).Perm l := by
  intro k
  induction k with
  | zero => intro l; exact List.Perm.refl l
  | succ k ih =>
    intro l
    exact List.Perm.trans (ih _) (heapifyDown_perm' less l k)

theorem buildHeapData_perm (less : T → T → Bool) (l : List T) :
    (buildHeapData less l).Perm l := heapifyRange_perm less _ l

theorem Descendant.le {j i : Nat} (h : Descendant j i) : j ≤ i := by
  induction h with
  | refl => exact le_rfl
  | left _ ih => omega
  | right _ ih => omega

theorem Descendant.trans {a b c : Nat} (h1 : Descendant a b) (h2 : Descendant b c) :
    Descendant a c := by
  induction h1 with
  | refl => exact h2
  | left _ ih => exact .left (ih h2)
  | right _ ih => exact .right (ih h2)

theorem Descendant.child_left (j : Nat) : Descendant j (2 * j + 1) := .left (.refl _)

theorem Descendant.child_right (j : Nat) : Descendant j (2 * j + 2) := .right (.refl _)

/-- Every index with `i > 0` is in the subtree of its parent. -/
theorem Descendant.parent {i : Nat} (h : 0 < i) : Descendant ((i - 1) / 2) i := by
  rcases Nat.even_or_odd i with ⟨k, hk⟩ | ⟨k, hk⟩
  · -- i = 2k even, i > 0: i = 2(k-1)+2 and (i-1)/2 = k-1
    have hk1 : 0 < k := by omega
    have h1 : (i - 1) / 2 = k - 1 := by omega
    have h2 : i = 2 * (k - 1) + 2 := by omega
    rw [h1, h2]
    exact child_right _
  · -- i = 2k+1 odd: (i-1)/2 = k
    have h1 : (i - 1) / 2 = k := by omega
    have h2 : i = 2 * k + 1 := by omega
    rw [h1, h2]
    exact child_left _

/-- A non-root member of a subtree has its parent in the subtree. -/
theorem Descendant.parent_mem {j i : Nat} (h : Descendant j i) (hne : i ≠ j) :
    Descendant j ((i - 1) / 2) := by
  induction h with
  | refl => exact absurd rfl hne
  | @left j' i' h ih =>
    rcases eq_or_ne i' (2 * j' + 1) with rfl | hne2
    · have : (2 * j' + 1 - 1) / 2 = j' := by omega
      rw [this]
      exact .refl _
    · exact .left (ih hne2)
  | @right j' i' h ih =>
    rcases eq_or_ne i' (2 * j' + 2) with rfl | hne2
    · have : (2 * j' + 2 - 1) / 2 = j' := by omega
      rw [this]
      exact .refl _
    · exact .right (ih hne2)

/-- A non-root member of a subtree is in one of the child subtrees. -/
theorem Descendant.split {j i : Nat} (h : Descendant j i) (hne : i ≠ j) :
    Descendant (2 * j + 1) i ∨ Descendant (2 * j + 2) i := by
  cases h with
  | refl => exact absurd rfl hne
  | left h => exact Or.inl h
  | right h => exact Or.inr h

/-- A non-root member of a subtree lies at or below the left child index. -/
theorem Descendant.lower_bound {j i : Nat} (h : Descendant j i) (hne : i ≠ j) :
    2 * j + 1 ≤ i := by
  rcases h.split hne with h1 | h1
  · exact h1.le
  · have := h1.le; omega

/-- Index 0 is an ancestor of every index. -/
theorem Descendant.zero (i : Nat) : Descendant 0 i := by
  induction i using Nat.strong_induction_on with
  | _ i ih =>
    rcases Nat.eq_zero_or_pos i with rfl | hpos
    · exact .refl 0
    · have hp : (i - 1) / 2 < i := by omega
      exact (ih _ hp).trans (Descendant.parent hpos)

/-- Two ancestors of a common index are comparable. -/
theorem Descendant.chain {a b : Nat} :
    ∀ {k : Nat}, Descendant a k → Descendant b k → Descendant a b ∨ Descendant b a := by
  intro k
  induction k using Nat.strong_induction_on with
  | _ k ih =>
    intro ha hb
    rcases eq_or_ne k a with rfl | hka
    · exact Or.inr hb
    rcases eq_or_ne k b with rfl | hkb
    · exact Or.inl ha
    have hpos : 0 < k := by
      have := ha.le
      rcases Nat.eq_zero_or_pos k with rfl | h
      · omega
      · exact h
    have hp : (k - 1) / 2 < k := by omega
    exact ih _ hp (ha.parent_mem hka) (hb.parent_mem hkb)

/-- The two child subtrees are disjoint. -/
theorem Descendant.sibling_disjoint {j m : Nat}
    (h1 : Descendant (2 * j + 1) m) (h2 : Descendant (2 * j + 2) m) : False := by
  rcases Descendant.chain h1 h2 with h | h
  · have := (h.parent_mem (by omega)).le
    omega
  · have := h.le; omega

theorem Asymm.irrefl {less : T → T → Bool} (ha : Asymm less) (a : T) :
    less a a = false := by
  cases h : less a a with
  | false => rfl
  | true => exact h ▸ ha a a h

theorem swo_trans {less : T → T → Bool} (ha : Asymm less) (hn : NegTrans less)
    {a b c : T} (h1 : less a b = true) (h2 : less b c = true) : less a c = true := by
  cases h : less a c with
  | true => rfl
  | false =>
    have h4 : less c b = false := ha b c h2
    have h5 : less a b = false := hn a c b h h4
    rw [h1] at h5
    exact h5.symm

theorem heapProp_iff_subHeapAt_zero {less : T → T → Bool} {l : List T} :
    HeapProp less l ↔ SubHeapAt less l 0 := by
  constructor
  · intro hp i hi _ hne
    exact hp i (by omega) hi
  · intro hs i h0 hi
    exact hs i hi (Descendant.zero i) (by omega)

theorem heapProp_nil (less : T → T → Bool) : HeapProp less ([] : List T) := by
  intro i h0 hi
  simp at hi

/-- In a subtree satisfying the heap invariant, no element beats the subtree root. -/
theorem subHeapAt_min {less : T → T → Bool} (ha : Asymm less) (hn : NegTrans less)
    {l : List T} {j : Nat} (hs : SubHeapAt less l j) :
    ∀ p, p < l.length → Descendant j p → less (idx l p) (idx l j) = false := by
  intro p
  induction p using Nat.strong_induction_on with
  | _ p ih =>
    intro hp hd
    rcases eq_or_ne p j with rfl | hne
    · exact ha.irrefl _
    · have hpos : 0 < p := by
        have := hd.lower_bound hne
        omega
      have hedge : less (idx l p) (idx l (parentIndex p)) = false := hs p hp hd hne
      have hpar : Descendant j ((p - 1) / 2) := hd.parent_mem hne
      have hplt : (p - 1) / 2 < p := by omega
      have hpl : (p - 1) / 2 < l.length := by omega
      have hrec : less (idx l ((p - 1) / 2)) (idx l j) = false := ih _ hplt hpl hpar
      exact hn _ _ _ hedge hrec

/-- In a heap, no element beats the root: the root is a highest-priority element. -/
theorem heapProp_root_min {less : T → T → Bool} (ha : Asymm less) (hn : NegTrans less)
    {l : List T} (hp : HeapProp less l) :
    ∀ x ∈ l, less x (idx l 0) = false := by
  intro x hx
  rcases List.mem_iff_getElem.mp hx with ⟨i, hi, rfl⟩
  rw [← idx_eq_getElem hi]
  exact subHeapAt_min ha hn (heapProp_iff_subHeapAt_zero.mp hp) i hi (Descendant.zero i)

theorem heapifyUp_heapProp {less : T → T → Bool} (ha : Asymm less) (hn : NegTrans less) :
    ∀ (j : Nat) (l : List T), j < l.length → UpInv less l j →
      HeapProp less (heapifyUp less l j) := by
  intro j
  induction j using Nat.strong_induction_on with
  | _ j ih =>
    intro l hjl hinv
    rw [heapifyUp_eq]
    by_cases h0 : 0 < j
    swap
    · simp only [if_neg h0]
      intro i hi hil
      exact hinv.1 i hi hil (by omega)
    simp only [if_pos h0]
    set p := parentIndex j with hp
    have hplt : p < j := by
      have := Nat.div_le_self (j - 1) 2
      simp only [hp, parentIndex]
      omega
    have hpl : p < l.length := by omega
    by_cases hc : less (idx l j) (idx l p) = true
    swap
    · simp only [hc, Bool.false_eq_true, if_neg, not_false_iff]
      intro i hi hil
      rcases eq_or_ne i j with rfl | hne
      · simpa using hc
      · exact hinv.1 i hi hil hne
    simp only [if_pos hc]
    set l' := swapL l j p with hl'
    have hlen : l'.length = l.length := swapL_length ..
    have hjp : j ≠ p := by omega
    have idx_j : idx l' j = idx l p := idx_swapL_fst hjl hpl
    have idx_p : idx l' p = idx l j := idx_swapL_snd hjl hpl
    have idx_o : ∀ k, k ≠ j → k ≠ p → idx l' k = idx l k := fun k h1 h2 =>
      idx_swapL_other h1 h2
    refine ih p hplt l' (by omega) ⟨?_, ?_⟩
    · -- all edges except the one out of p hold in l'
      intro i hi hil hip
      rcases eq_or_ne i j with rfl | hij
      · -- the edge from j (now holding the old parent value) up to p (the old child)
        rw [idx_j, ← hp, idx_p]
        exact ha _ _ hc
      rcases eq_or_ne (parentIndex i) j with hpi | hpi
      · -- a child of j: its new parent value is the old value at p
        rw [idx_o i hij (by omega), hpi, idx_j]
        exact hinv.2 i (by omega) hpi hi h0
      rcases eq_or_ne (parentIndex i) p with hpp | hpp
      · -- the sibling of j keeps its old value but gets the old j value as parent
        rw [idx_o i hij hip, hpp, idx_p]
        have hold : less (idx l i) (idx l p) = false := by
          rw [← hpp]
          exact hinv.1 i hi (by omega) hij
        cases hlt : less (idx l i) (idx l j) with
        | false => rfl
        | true =>
          have := swo_trans ha hn hlt hc
          rw [hold] at this
          exact this.symm
      · -- an edge not touching j or p at all
        rw [idx_o i hij hip, idx_o _ hpi hpp]
        exact hinv.1 i hi (by omega) hij
    · -- the children of p (j and its sibling) do not beat p's parent
      intro c hc' hpc hc0 hp0
      set g := parentIndex p with hg
      have hglt : g < p := by
        have := Nat.div_le_self (p - 1) 2
        simp only [hg, parentIndex]
        omega
      have hgne_j : g ≠ j := by omega
      have hgne_p : g ≠ p := by omega
      rw [idx_o g hgne_j hgne_p]
      rcases eq_or_ne c j with rfl | hcj
      · rw [idx_j]
        exact hinv.1 p hp0 hpl (by omega)
      · have hcp : c ≠ p := by
          have : 2 * p + 1 ≤ c := by
            simp only [parentIndex] at hpc
            omega
          omega
        rw [idx_o c hcj hcp]
        have h1 : less (idx l c) (idx l p) = false := by
          have := hinv.1 c hc0 (by omega) hcj
          rwa [hpc] at this
        have h2 : less (idx l p) (idx l g) = false := hinv.1 p hp0 hpl (by omega)
        exact hn _ _ _ h1 h2

/-- The `Insert` establishes the heap invariant (postcondition of §4.1). -/
theorem insertData_heapProp {less : T → T → Bool} (ha : Asymm less) (hn : NegTrans less)
    {l : List T} (hp : HeapProp less l) (v : T) :
    HeapProp less (insertData less l v) := by
  unfold insertData
  have hlen : (l ++ [v]).length = l.length + 1 := by simp
  have : (l ++ [v]).length - 1 = l.length := by simp
  rw [this]
  refine heapifyUp_heapProp ha hn _ _ (by omega) ⟨?_, ?_⟩
  · intro i hi hil hine
    have hil' : i < l.length := by omega
    have hpar : parentIndex i < l.length := by
      simp only [parentIndex]
      omega
    rw [idx, List.getD_append _ _ _ _ hil', idx, List.getD_append _ _ _ _ hpar]
    exact hp i hi hil'
  · intro c hc hpc hc0 hj0
    -- a child of the appended index would live beyond the array
    simp only [parentIndex] at hpc
    omega

/-! ## Correctness of `heapifyDown` -/

theorem Descendant.not_sibling_lr (j : Nat) : ¬ Descendant (2 * j + 1) (2 * j + 2) := by
  intro h
  have := (h.parent_mem (by omega)).le
  omega

theorem Descendant.not_sibling_rl (j : Nat) : ¬ Descendant (2 * j + 2) (2 * j + 1) := by
  intro h
  have := h.le
  omega

/-- When `heapifyDown` stops at `j`, neither child (when present) beats `j`. -/
theorem downTarget_eq_facts {less : T → T → Bool} {l : List T} {j : Nat}
    (h : downTarget less l j = j) :
    (2 * j + 1 < l.length → less (idx l (2 * j + 1)) (idx l j) = false) ∧
    (2 * j + 2 < l.length → less (idx l (2 * j + 2)) (idx l j) = false) := by
  unfold downTarget at h
  simp only [leftChildIndex, rightChildIndex] at h
  split_ifs at h with h1 h2 h2
  · omega
  · omega
  · omega
  · constructor
    · intro hlt
      cases hb : less (idx l (2 * j + 1)) (idx l j) with
      | false => rfl
      | true => exact absurd ⟨hlt, hb⟩ h1
    · intro hlt
      cases hb : less (idx l (2 * j + 2)) (idx l j) with
      | false => rfl
      | true => exact absurd ⟨hlt, hb⟩ h2

/-- When `heapifyDown` moves, the target is a child of `j` that is in range, beats `j`,
and is not beaten by the other child (when that child is in range). -/
theorem downTarget_ne_facts {less : T → T → Bool} (ha : Asymm less) (hn : NegTrans less)
    {l : List T} {j : Nat} (hne : downTarget less l j ≠ j) :
    (downTarget less l j = 2 * j + 1 ∨ downTarget less l j = 2 * j + 2) ∧
    downTarget less l j < l.length ∧
    less (idx l (downTarget less l j)) (idx l j) = true ∧
    (∀ o, (o = 2 * j + 1 ∨ o = 2 * j + 2) → o ≠ downTarget less l j → o < l.length →
      less (idx l o) (idx l (downTarget less l j)) = false) := by
  unfold downTarget at *
  simp only [leftChildIndex, rightChildIndex] at *
  split_ifs at * with h1 h2 h2
  · -- left beats j, right beats left: target is the right child
    refine ⟨Or.inr rfl, h2.1, swo_trans ha hn h2.2 h1.2, ?_⟩
    intro o ho hone holt
    rcases ho with rfl | rfl
    · exact ha _ _ h2.2
    · omega
  · -- left beats j, right does not beat left: target is the left child
    refine ⟨Or.inl rfl, h1.1, h1.2, ?_⟩
    intro o ho hone holt
    rcases ho with rfl | rfl
    · omega
    · cases hb : less (idx l (2 * j + 2)) (idx l (2 * j + 1)) with
      | false => rfl
      | true => exact absurd ⟨holt, hb⟩ h2
  · -- left does not beat j, right beats j: target is the right child
    refine ⟨Or.inr rfl, h2.1, h2.2, ?_⟩
    intro o ho hone holt
    rcases ho with rfl | rfl
    · cases hb : less (idx l (2 * j + 1)) (idx l (2 * j + 2)) with
      | false => rfl
      | true =>
        have := swo_trans ha hn hb h2.2
        cases hb2 : less (idx l (2 * j + 1)) (idx l j) with
        | false => rw [hb2] at this; exact this.symm
        | true => exact absurd ⟨holt, hb2⟩ h1
    · omega
  · omega

/-- Main specification of `heapifyDown` at index `j`: if both child subtrees of `j`
satisfy the heap invariant, the result satisfies it on the whole subtree of `j`;
moreover positions outside the subtree are untouched and every subtree slot of the
result holds a value from a subtree slot of the input. -/
theorem heapifyDown_spec {less : T → T → Bool} (ha : Asymm less) (hn : NegTrans less) :
    ∀ (k : Nat) (l : List T) (j : Nat), l.length - j ≤ k →
      SubHeapAt less l (2 * j + 1) → SubHeapAt less l (2 * j + 2) →
      SubHeapAt less (heapifyDown less l j) j ∧
      (∀ m, ¬ Descendant j m → idx (heapifyDown less l j) m = idx l m) ∧
      (∀ m, m < l.length → Descendant j m →
        ∃ m2, m2 < l.length ∧ Descendant j m2 ∧
          idx (heapifyDown less l j) m = idx l m2) := by
  intro k
  induction k with
  | zero =>
    intro l j hk hl hr
    have hstop : downTarget less l j = j := by
      by_contra hne
      have := downTarget_gt hne
      omega
    rw [heapifyDown_eq, if_neg (fun hh => hh hstop)]
    refine ⟨?_, fun m _ => rfl, fun m hm hd => ⟨m, hm, hd, rfl⟩⟩
    intro i hi hd hne
    have := hd.lower_bound hne
    omega
  | succ k ih =>
    intro l j hk hl hr
    rw [heapifyDown_eq]
    by_cases hne : downTarget less l j ≠ j
    · simp only [if_pos hne]
      obtain ⟨hdtc, hdn, hlt, hobound⟩ := downTarget_ne_facts ha hn hne
      set dt := downTarget less l j with hdt
      have hjdt : j < dt := (downTarget_gt hne).1
      have hjn : j < l.length := by omega
      have hpdt : parentIndex dt = j := by
        rcases hdtc with h | h <;> (rw [h]; simp only [parentIndex]; omega)
      have hjdesc : Descendant j dt := by
        rcases hdtc with h | h
        · rw [h]; exact Descendant.child_left j
        · rw [h]; exact Descendant.child_right j
      set l2 := swapL l j dt with hl2
      have hlen2 : l2.length = l.length := swapL_length ..
      have idx_j : idx l2 j = idx l dt := idx_swapL_fst hjn hdn
      have idx_dt : idx l2 dt = idx l j := idx_swapL_snd hjn hdn
      have idx_o : ∀ m, m ≠ j → m ≠ dt → idx l2 m = idx l m := fun m h1 h2 =>
        idx_swapL_other h1 h2
      -- the heap statement on the subtree of `dt` held by `l`
      have hsub_dt : SubHeapAt less l dt := by
        rcases hdtc with h | h
        · rw [h]; exact hl
        · rw [h]; exact hr
      -- both child subtrees of `dt` satisfy the invariant in `l2`
      have hchild : ∀ c, (c = 2 * dt + 1 ∨ c = 2 * dt + 2) → SubHeapAt less l2 c := by
        intro c hc i hi hd hine
        have hcdt : dt < c := by omega
        have hilb : c + 1 ≤ i ∨ c = i := by
          rcases eq_or_ne i c with rfl | hic
          · exact Or.inr rfl
          · exact Or.inl (by have := hd.lower_bound hic; omega)
        have hige : c ≤ i := hd.le
        have hpge : c ≤ parentIndex i := (hd.parent_mem hine).le
        have hidesc : Descendant dt i := by
          refine Descendant.trans ?_ hd
          rcases hc with rfl | rfl
          · exact Descendant.child_left dt
          · exact Descendant.child_right dt
        rw [idx_o i (by omega) (by omega), idx_o (parentIndex i) (by omega) (by omega)]
        exact hsub_dt i (by omega) hidesc (by omega)
      obtain ⟨S2, A2, B2⟩ := ih l2 dt (by omega)
        (hchild _ (Or.inl rfl)) (hchild _ (Or.inr rfl))
      set l3 := heapifyDown less l2 dt with hl3
      have hlen3 : l3.length = l.length := by
        rw [hl3, heapifyDown_length, hlen2]
      have hnd_j : ¬ Descendant dt j := fun h => by have := h.le; omega
      have e_j : idx l3 j = idx l dt := by rw [A2 j hnd_j, idx_j]
      refine ⟨?_, ?_, ?_⟩
      · -- the subtree of j satisfies the invariant in l3
        intro i hi hd hine
        by_cases hdi : Descendant dt i
        · rcases eq_or_ne i dt with rfl | hidt
          · -- the edge from dt up to j
            rw [hpdt, e_j]
            obtain ⟨m2, hm2n, hm2d, hm2e⟩ := B2 dt (by omega) (Descendant.refl dt)
            rw [hm2e]
            rcases eq_or_ne m2 dt with rfl | hm2dt
            · rw [idx_dt]
              exact ha _ _ hlt
            · rw [idx_o m2 (by have := hm2d.lower_bound hm2dt; omega) hm2dt]
              exact subHeapAt_min ha hn hsub_dt m2 (by omega) hm2d
          · exact S2 i (by omega) hdi hidt
        · -- i is in the other child subtree
          have hine' : i ≠ dt := fun h => hdi (h ▸ Descendant.refl i)
          have hsplit := hd.split hine
          have hoth : ∀ o, (o = 2 * j + 1 ∨ o = 2 * j + 2) → o ≠ dt → Descendant o i →
              less (idx l3 i) (idx l3 (parentIndex i)) = false := by
            intro o ho hodt hoi
            have hojlt : j < o := by omega
            have hnd_o : ¬ Descendant dt o := by
              intro hdo
              rcases hdtc with h | h <;> rcases ho with rfl | rfl
              · omega
              · exact (h ▸ Descendant.not_sibling_lr j) hdo
              · exact (h ▸ Descendant.not_sibling_rl j) hdo
              · omega
            rcases eq_or_ne i o with rfl | hio
            · -- the edge from the other child up to j
              have hpo : parentIndex i = j := by
                rcases ho with rfl | rfl <;> (simp only [parentIndex]; omega)
              rw [hpo, e_j, A2 i hdi, idx_o i (by omega) hine']
              exact hobound i ho hodt (by omega)
            · -- an edge strictly inside the other child subtree
              have hnd_pi : ¬ Descendant dt (parentIndex i) := by
                intro hdp
                rcases Descendant.chain (hoi.parent_mem hio) hdp with h | h
                · rcases hdtc with hcase | hcase <;> rcases ho with rfl | rfl
                  · omega
                  · rw [hcase] at h
                    exact Descendant.not_sibling_rl j h
                  · rw [hcase] at h
                    exact Descendant.not_sibling_lr j h
                  · omega
                · exact hnd_o h
              have hpdef : parentIndex i = (i - 1) / 2 := rfl
              have hpilb : o ≤ parentIndex i := (hoi.parent_mem hio).le
              have hilb := hoi.le
              have hilb2 := hoi.lower_bound hio
              rw [A2 i hdi, A2 (parentIndex i) hnd_pi,
                idx_o i (by omega) hine',
                idx_o (parentIndex i) (by omega) (fun h => hnd_pi (h ▸ Descendant.refl _))]
              -- the edge held already in l, by the invariant of the subtree at o
              rcases ho with rfl | rfl
              · exact hl i (by omega) hoi hio
              · exact hr i (by omega) hoi hio
          rcases hsplit with hsp | hsp
          · refine hoth _ (Or.inl rfl) ?_ hsp
            intro h
            exact hdi (h ▸ hsp)
          · refine hoth _ (Or.inr rfl) ?_ hsp
            intro h
            exact hdi (h ▸ hsp)
      · -- positions outside the subtree of j are untouched
        intro m hm
        have h1 : ¬ Descendant dt m := fun h => hm (hjdesc.trans h)
        have h2 : m ≠ j := fun h => hm (h ▸ Descendant.refl m)
        have h3 : m ≠ dt := fun h => hm (h ▸ hjdesc)
        rw [A2 m h1, idx_o m h2 h3]
      · -- each subtree slot of the result holds a value from a subtree slot of l
        intro m hm hd
        by_cases hdm : Descendant dt m
        · obtain ⟨m2, hm2n, hm2d, hm2e⟩ := B2 m (by omega) hdm
          rcases eq_or_ne m2 dt with rfl | hm2dt
          · exact ⟨j, hjn, Descendant.refl j, by rw [hm2e, idx_dt]⟩
          · refine ⟨m2, by omega, hjdesc.trans hm2d, ?_⟩
            rw [hm2e, idx_o m2 (by have := hm2d.lower_bound hm2dt; omega) hm2dt]
        · have hmj : m ≠ dt := fun h => hdm (h ▸ Descendant.refl m)
          rcases eq_or_ne m j with rfl | hmj2
          · exact ⟨dt, hdn, hjdesc, by rw [A2 m hdm, idx_j]⟩
          · exact ⟨m, hm, hd, by rw [A2 m hdm, idx_o m hmj2 hmj]⟩
    · rw [if_neg hne]
      push_neg at hne
      obtain ⟨hfl, hfr⟩ := downTarget_eq_facts hne
      refine ⟨?_, fun m _ => rfl, fun m hm hd => ⟨m, hm, hd, rfl⟩⟩
      intro i hi hd hine
      rcases hd.split hine with hsp | hsp
      · rcases eq_or_ne i (2 * j + 1) with rfl | hi2
        · have hpi : parentIndex (2 * j + 1) = j := by simp only [parentIndex]; omega
          rw [hpi]
          exact hfl hi
        · exact hl i hi hsp hi2
      · rcases eq_or_ne i (2 * j + 2) with rfl | hi2
        · have hpi : parentIndex (2 * j + 2) = j := by simp only [parentIndex]; omega
          rw [hpi]
          exact hfr hi
        · exact hr i hi hsp hi2

/-! ## Correctness of `Extract` -/

theorem subHeapAt_of_descendant {less : T → T → Bool} {l : List T} {a b : Nat}
    (hs : SubHeapAt less l a) (hab : Descendant a b) : SubHeapAt less l b := by
  intro i hi hd hne
  refine hs i hi (hab.trans hd) ?_
  intro heq
  have h1 := hd.le
  have h2 := hab.le
  exact hne (by omega)

/-- The slice manipulation of `Extract` (`data[0] = data[n-1]; data = data[:n-1]`)
turns the backing list into a permutation of its tail. -/
theorem extract_slice_perm {l : List T} (hne : l ≠ []) :
    ((l.set 0 (idx l (l.length - 1))).take (l.length - 1)).Perm l.tail := by
  match l, hne with
  | a :: t, _ =>
    cases t with
    | nil => exact List.Perm.refl []
    | cons b t' =>
      set t := b :: t' with ht
      have htne : t.length - 1 < t.length := by simp [ht]
      have hidx : idx (a :: t) ((a :: t).length - 1) = idx t (t.length - 1) := by
        have : (a :: t).length - 1 = (t.length - 1) + 1 := by simp [ht]
        rw [this, idx, List.getD_cons_succ, idx]
      rw [hidx, List.set_cons_zero]
      have hlen : (a :: t).length - 1 = (t.length - 1) + 1 := by simp [ht]
      rw [hlen, List.take_succ_cons, List.tail_cons]
      have hdecomp : t = t.take (t.length - 1) ++ [t[t.length - 1]] := by
        conv_lhs => rw [take_cons_decomp htne]
        have : t.drop (t.length - 1 + 1) = [] := by
          apply List.drop_eq_nil_of_le
          omega
        rw [this]
      conv_rhs => rw [hdecomp]
      have hidx2 : idx t (t.length - 1) = t[t.length - 1] := idx_eq_getElem htne
      rw [hidx2]
      exact (List.perm_append_singleton _ _).symm

theorem extractData_empty (less : T → T → Bool) :
    extractData less ([] : List T) = (default, false, []) := rfl

theorem extractData_eq {less : T → T → Bool} {l : List T} (hne : l ≠ []) :
    extractData less l = (idx l 0, true,
      heapifyDown less ((l.set 0 (idx l (l.length - 1))).take (l.length - 1)) 0) := by
  unfold extractData
  rw [if_neg (by simpa using hne)]

/-- The `Extract` on a nonempty list returns the root, `found = true`, and a remainder that
together with the root is a permutation of the input. -/
theorem extractData_perm {less : T → T → Bool} {l : List T} (hne : l ≠ []) :
    ((extractData less l).1 :: (extractData less l).2.2).Perm l := by
  rw [extractData_eq hne]
  have h1 : (heapifyDown less ((l.set 0 (idx l (l.length - 1))).take (l.length - 1))
      0).Perm l.tail :=
    (heapifyDown_perm' less _ 0).trans (extract_slice_perm hne)
  match l, hne with
  | a :: t, _ =>
    have : idx (a :: t) 0 = a := rfl
    rw [this]
    exact (h1.cons a)

theorem extractData_length {less : T → T → Bool} {l : List T} (hne : l ≠ []) :
    (extractData less l).2.2.length = l.length - 1 := by
  have := (@extractData_perm T _ less l hne).length_eq
  simp only [List.length_cons] at this
  omega

/-- The `Extract` preserves the heap invariant. -/
theorem extractData_heapProp {less : T → T → Bool} (ha : Asymm less) (hn : NegTrans less)
    {l : List T} (hp : HeapProp less l) : HeapProp less (extractData less l).2.2 := by
  rcases eq_or_ne l [] with rfl | hne
  · rw [extractData_empty]
    exact heapProp_nil less
  · rw [extractData_eq hne]
    set n := l.length with hnl
    have hnpos : 0 < n := by
      rw [hnl]
      exact List.length_pos.mpr hne
    set l1 := (l.set 0 (idx l (n - 1))).take (n - 1) with hl1
    have hlen1 : l1.length = n - 1 := by
      rw [hl1]
      simp only [List.length_take, List.length_set]
      omega
    have idx_l1 : ∀ k, 1 ≤ k → k < n - 1 → idx l1 k = idx l k := by
      intro k h1 h2
      rw [hl1, idx_take (by omega) (by rw [List.length_set]; omega),
        idx_set_ne (by omega)]
    have hchild : ∀ c, (c = 1 ∨ c = 2) → SubHeapAt less l1 c := by
      intro c hc i hi hd hine
      have hclb : 1 ≤ c := by omega
      have hige : c ≤ i := hd.le
      have hilb : 2 * c + 1 ≤ i := hd.lower_bound hine
      have hpge : c ≤ parentIndex i := (hd.parent_mem hine).le
      have hpdef : parentIndex i = (i - 1) / 2 := rfl
      rw [idx_l1 i (by omega) (by omega), idx_l1 (parentIndex i) (by omega) (by omega)]
      exact hp i (by omega) (by omega)
    obtain ⟨S0, _, _⟩ := heapifyDown_spec ha hn l1.length l1 0 (by omega)
      (by simpa using hchild 1 (Or.inl rfl)) (by simpa using hchild 2 (Or.inr rfl))
    exact heapProp_iff_subHeapAt_zero.mpr S0

/-! ## Correctness of `buildHeap` (Floyd's bottom-up construction) -/

theorem heapifyRange_subHeap {less : T → T → Bool} (ha : Asymm less) (hn : NegTrans less) :
    ∀ (k : Nat) (l : List T), (∀ j, k ≤ j → SubHeapAt less l j) →
      ∀ j, SubHeapAt less (heapifyRange less k l) j := by
  intro k
  induction k with
  | zero =>
    intro l hyp j
    exact hyp j (Nat.zero_le j)
  | succ k ih =>
    intro l hyp
    show ∀ j, SubHeapAt less (heapifyRange less k (heapifyDown less l k)) j
    refine ih (heapifyDown less l k) ?_
    obtain ⟨Sk, Ak, Bk⟩ := heapifyDown_spec ha hn (l.length - k) l k le_rfl
      (hyp (2 * k + 1) (by omega)) (hyp (2 * k + 2) (by omega))
    have hlen : (heapifyDown less l k).length = l.length := heapifyDown_length ..
    intro j hj
    rcases eq_or_ne j k with rfl | hjk
    · exact Sk
    · have hjgt : k < j := by omega
      by_cases hdk : Descendant k j
      · exact subHeapAt_of_descendant Sk hdk
      · -- the subtree of j is untouched
        intro i hi hd hine
        have hnd_i : ¬ Descendant k i := by
          intro hki
          rcases Descendant.chain hd hki with h | h
          · have := h.le; omega
          · exact hdk h
        have hnd_pi : ¬ Descendant k (parentIndex i) := by
          intro hkp
          rcases Descendant.chain (hd.parent_mem hine) hkp with h | h
          · have := h.le; omega
          · exact hdk h
        rw [Ak i hnd_i, Ak (parentIndex i) hnd_pi]
        exact hyp j (by omega) i (by omega) hd hine

/-- Floyd's bottom-up pass establishes the heap invariant on any list. -/
theorem buildHeapData_heapProp {less : T → T → Bool} (ha : Asymm less)
    (hn : NegTrans less) (l : List T) : HeapProp less (buildHeapData less l) := by
  refine heapProp_iff_subHeapAt_zero.mpr ?_
  refine heapifyRange_subHeap ha hn (l.length / 2) l ?_ 0
  intro j hj i hi hd hine
  have := hd.lower_bound hine
  omega

/-! ## Heap-level wrappers and the drain lemma -/

theorem Heap.Extract_fst (h : Heap T) : (h.Extract).1 = (extractData h.less h.data).1 :=
  rfl

theorem Heap.Extract_found (h : Heap T) :
    (h.Extract).2.1 = (extractData h.less h.data).2.1 := rfl

theorem Heap.Extract_data (h : Heap T) :
    (h.Extract).2.2.data = (extractData h.less h.data).2.2 := rfl

theorem Heap.Extract_less (h : Heap T) : (h.Extract).2.2.less = h.less := rfl

theorem drainN_succ (n : Nat) (h : Heap T) :
    drainN (n + 1) h = (((h.Extract).1, (h.Extract).2.1) :: (drainN n (h.Extract).2.2).1,
      (drainN n (h.Extract).2.2).2) := rfl

/-- The ascending comparator of `NewMinHeap` is asymmetric. -/
theorem ltComp_asymm (T : Type) [LinearOrder T] :
    Asymm (fun a b : T => decide (a < b)) := by
  intro a b h
  rw [decide_eq_true_eq] at h
  exact decide_eq_false (lt_asymm h)

/-- The ascending comparator of `NewMinHeap` is negatively transitive. -/
theorem ltComp_negTrans (T : Type) [LinearOrder T] :
    NegTrans (fun a b : T => decide (a < b)) := by
  intro a b c h1 h2
  rw [decide_eq_false_iff_not, not_lt] at h1 h2
  exact decide_eq_false (not_lt.mpr (le_trans h2 h1))

/-- The descending comparator of `NewMaxHeap` is asymmetric. -/
theorem gtComp_asymm (T : Type) [LinearOrder T] :
    Asymm (fun a b : T => decide (b < a)) := by
  intro a b h
  rw [decide_eq_true_eq] at h
  exact decide_eq_false (lt_asymm h)

/-- The descending comparator of `NewMaxHeap` is negatively transitive. -/
theorem gtComp_negTrans (T : Type) [LinearOrder T] :
    NegTrans (fun a b : T => decide (b < a)) := by
  intro a b c h1 h2
  rw [decide_eq_false_iff_not, not_lt] at h1 h2
  exact decide_eq_false (not_lt.mpr (le_trans h1 h2))

theorem insertAll_spec {less : T → T → Bool} (ha : Asymm less) (hn : NegTrans less) :
    ∀ (vs : List T) (h : Heap T), h.less = less → HeapProp less h.data →
      (h.insertAll vs).less = less ∧ ((h.insertAll vs).data).Perm (h.data ++ vs) ∧
      HeapProp less (h.insertAll vs).data := by
  intro vs
  induction vs with
  | nil =>
    intro h hless hp
    exact ⟨hless, by simp [Heap.insertAll], hp⟩
  | cons v vs ih =>
    intro h hless hp
    have step : h.insertAll (v :: vs) = (h.Insert v).insertAll vs := rfl
    have hless' : (h.Insert v).less = less := hless
    have hdata' : (h.Insert v).data = insertData less h.data v := by
      show insertData h.less h.data v = _
      rw [hless]
    have hp' : HeapProp less (h.Insert v).data := by
      rw [hdata']
      exact insertData_heapProp ha hn hp v
    obtain ⟨e1, e2, e3⟩ := ih (h.Insert v) hless' hp'
    refine ⟨by rwa [step], ?_, by rwa [step]⟩
    rw [step]
    refine e2.trans ?_
    rw [hdata']
    have : (h.data ++ [v]) ++ vs = h.data ++ (v :: vs) := by simp
    rw [← this]
    exact (insertData_perm less h.data v).append_right vs

/-- Draining a heap: repeated extraction returns a permutation of the contents, in an
order where no later element has strictly higher priority than an earlier one, with
`found = true` throughout, ending on the empty heap. -/
theorem drainN_spec {less : T → T → Bool} (ha : Asymm less) (hn : NegTrans less) :
    ∀ (n : Nat) (h : Heap T), h.less = less → h.data.length = n →
      HeapProp less h.data →
      ((drainN n h).1.map Prod.fst).Perm h.data ∧
      ((drainN n h).1.map Prod.fst).Pairwise (fun a b => less b a = false) ∧
      (∀ p ∈ (drainN n h).1, p.2 = true) ∧
      (drainN n h).2.data = [] ∧ (drainN n h).2.less = less := by
  intro n
  induction n with
  | zero =>
    intro h hless hlen hp
    have hdata : h.data = [] := List.length_eq_zero.mp hlen
    exact ⟨by rw [hdata]; exact List.Perm.refl _, by constructor, by simp [drainN],
      by simp [drainN, hdata], by simp [drainN, hless]⟩
  | succ n ih =>
    intro h hless hlen hp
    have hne : h.data ≠ [] := by
      intro hd
      rw [hd] at hlen
      simp at hlen
    have e_fst : (h.Extract).1 = idx h.data 0 := by
      rw [Heap.Extract_fst, hless, extractData_eq hne]
    have e_found : (h.Extract).2.1 = true := by
      rw [Heap.Extract_found, hless, extractData_eq hne]
    have e_data : (h.Extract).2.2.data = (extractData less h.data).2.2 := by
      rw [Heap.Extract_data, hless]
    have e_less : (h.Extract).2.2.less = less := by
      rw [Heap.Extract_less, hless]
    have hperm : ((extractData less h.data).1 :: (extractData less h.data).2.2).Perm
        h.data := extractData_perm hne
    have hlen' : (h.Extract).2.2.data.length = n := by
      rw [e_data, extractData_length hne]
      omega
    have hp' : HeapProp less (h.Extract).2.2.data := by
      rw [e_data]
      exact extractData_heapProp ha hn hp
    obtain ⟨ih1, ih2, ih3, ih4, ih5⟩ := ih (h.Extract).2.2 e_less hlen' hp'
    rw [drainN_succ]
    have hroot : (extractData less h.data).1 = idx h.data 0 := by
      rw [extractData_eq hne]
    refine ⟨?_, ?_, ?_, ih4, ih5⟩
    · simp only [List.map_cons]
      rw [e_fst]
      have ih1' : (List.map Prod.fst (drainN n (h.Extract).2.2).1).Perm
          ((extractData less h.data).2.2) := by
        rw [← e_data]
        exact ih1
      refine List.Perm.trans (List.Perm.cons _ ih1') ?_
      rw [← hroot]
      exact hperm
    · simp only [List.map_cons]
      refine List.Pairwise.cons ?_ ih2
      intro b hb
      have hb1 : b ∈ (h.Extract).2.2.data := (ih1.mem_iff).mp hb
      have hb2 : b ∈ h.data := by
        rw [e_data] at hb1
        exact hperm.mem_iff.mp (List.mem_cons_of_mem _ hb1)
      rw [e_fst]
      exact heapProp_root_min ha hn hp b hb2
    · intro p hp2
      rcases List.mem_cons.mp hp2 with rfl | hmem
      · simpa using e_found
      · exact ih3 p hmem

/-! ## Characterizations of the `OptimizedHeap` operations -/

theorem insert_guard_true {oh : OptimizedHeap T} (h1 : oh.canGrow = false)
    (h2 : oh.capacity ≤ oh.h.data.length) :
    (!oh.canGrow && decide (oh.capacity ≤ oh.h.data.length)) = true := by
  simp [h1, h2]

theorem insert_guard_false {oh : OptimizedHeap T}
    (h : oh.canGrow = true ∨ oh.h.data.length < oh.capacity) :
    (!oh.canGrow && decide (oh.capacity ≤ oh.h.data.length)) = false := by
  rcases h with h | h
  · simp [h]
  · simp [h, Nat.not_le.mpr h]

/-- A full fixed-capacity heap rejects the insert and is left unchanged. -/
theorem Insert_reject {oh : OptimizedHeap T} (h1 : oh.canGrow = false)
    (h2 : oh.capacity ≤ oh.h.data.length) (ac : Nat → Nat) (v : T) :
    OptimizedHeap.Insert ac oh v = (oh, some .capacityReached) := by
  unfold OptimizedHeap.Insert
  rw [if_pos (insert_guard_true h1 h2)]

/-- A lazy insert appends without sifting and marks the heap as not-yet-rebuilt. -/
theorem Insert_lazy {oh : OptimizedHeap T}
    (hg : oh.canGrow = true ∨ oh.h.data.length < oh.capacity) (hl : oh.useLazy = true)
    (ac : Nat → Nat) (v : T) :
    OptimizedHeap.Insert ac oh v =
      ({ oh.insertOnly ac v with heapified := false }, none) := by
  unfold OptimizedHeap.Insert
  rw [if_neg (by rw [insert_guard_false hg]; simp), if_pos (by rw [hl])]

/-- An eager insert at full occupancy grows the capacity and then performs the ordinary
heap insert on the (order-preserved) data. -/
theorem Insert_eager_full {oh : OptimizedHeap T} (hg : oh.canGrow = true)
    (hl : oh.useLazy = false) (hfull : oh.h.data.length = oh.capacity)
    (ac : Nat → Nat) (v : T) :
    OptimizedHeap.Insert ac oh v =
      ({ oh with
          capacity := if oh.growthFunc (oh.capacity : Int) ≤ (oh.capacity : Int)
            then oh.capacity + 1 else (oh.growthFunc (oh.capacity : Int)).toNat
          h := oh.h.Insert v }, none) := by
  unfold OptimizedHeap.Insert
  rw [if_neg (by rw [insert_guard_false (Or.inl hg)]; simp), if_neg (by rw [hl]; simp),
    if_pos hfull]

/-- An eager insert below capacity performs the ordinary heap insert directly. -/
theorem Insert_eager_nonfull {oh : OptimizedHeap T}
    (hg : oh.canGrow = true ∨ oh.h.data.length < oh.capacity) (hl : oh.useLazy = false)
    (hnf : oh.h.data.length ≠ oh.capacity) (ac : Nat → Nat) (v : T) :
    OptimizedHeap.Insert ac oh v = ({ oh with h := oh.h.Insert v }, none) := by
  unfold OptimizedHeap.Insert
  rw [if_neg (by rw [insert_guard_false hg]; simp), if_neg (by rw [hl]; simp),
    if_neg hnf]

/-- A lazy extract on a pending nonempty heap first rebuilds bottom-up, marks the heap
rebuilt, then delegates. -/
theorem Extract_rebuild {oh : OptimizedHeap T} (hl : oh.useLazy = true)
    (hh : oh.heapified = false) (hne : oh.h.data ≠ []) :
    OptimizedHeap.Extract oh =
      ((({ oh.buildHeap with heapified := true } : OptimizedHeap T).h.Extract).1,
       (({ oh.buildHeap with heapified := true } : OptimizedHeap T).h.Extract).2.1,
       { ({ oh.buildHeap with heapified := true } : OptimizedHeap T) with
          h := (({ oh.buildHeap with heapified := true } : OptimizedHeap T).h.Extract).2.2 }) := by
  unfold OptimizedHeap.Extract
  rw [if_pos]
  simp [hl, OptimizedHeap.shouldBuildHeap, hh, List.length_pos.mpr hne]

/-- In every other situation `Extract` delegates directly to the wrapped heap. -/
theorem Extract_plain {oh : OptimizedHeap T}
    (h : oh.useLazy = false ∨ oh.heapified = true ∨ oh.h.data = []) :
    OptimizedHeap.Extract oh =
      (((oh.h.Extract)).1, ((oh.h.Extract)).2.1, { oh with h := ((oh.h.Extract)).2.2 }) := by
  unfold OptimizedHeap.Extract
  rw [if_neg]
  rcases h with h | h | h
  · simp [h]
  · simp [OptimizedHeap.shouldBuildHeap, h]
  · simp [OptimizedHeap.shouldBuildHeap, h]

theorem lazyWindowOK_insert {less : T → T → Bool} (ha : Asymm less) (hn : NegTrans less)
    {oh : OptimizedHeap T} (h : lazyWindowOK less oh) (ac : Nat → Nat) (v : T) :
    lazyWindowOK less (OptimizedHeap.Insert ac oh v).1 := by
  by_cases hrej : (!oh.canGrow && decide (oh.capacity ≤ oh.h.data.length)) = true
  · have h1 : oh.canGrow = false := by
      cases hcg : oh.canGrow
      · rfl
      · rw [hcg] at hrej; simp at hrej
    have h2 : oh.capacity ≤ oh.h.data.length := by
      rcases Bool.and_eq_true_iff.mp hrej with ⟨_, hd⟩
      exact of_decide_eq_true hd
    rw [Insert_reject h1 h2]
    exact h
  · have hg : oh.canGrow = true ∨ oh.h.data.length < oh.capacity := by
      cases hcg : oh.canGrow
      · right
        rw [hcg] at hrej
        simp only [Bool.not_false, Bool.true_and] at hrej
        have := (Bool.not_eq_true _).mp hrej
        have := of_decide_eq_false this
        omega
      · exact Or.inl rfl
    by_cases hl : oh.useLazy = true
    · rw [Insert_lazy hg hl]
      refine ⟨h.1, ?_⟩
      rintro (habs | habs)
      · rw [show ({ oh.insertOnly ac v with heapified := false } :
            OptimizedHeap T).useLazy = oh.useLazy from rfl, hl] at habs
        exact absurd habs (by simp)
      · exact absurd habs (by simp)
    · have hl' : oh.useLazy = false := by
        cases hu : oh.useLazy
        · rfl
        · exact absurd hu hl
      have hp : HeapProp less oh.h.data := h.2 (Or.inl hl')
      by_cases hnf : oh.h.data.length = oh.capacity
      · have hcg : oh.canGrow = true := by
          rcases hg with h | h
          · exact h
          · omega
        rw [Insert_eager_full hcg hl' hnf]
        refine ⟨h.1, fun _ => ?_⟩
        show HeapProp less (insertData oh.h.less oh.h.data v)
        rw [h.1]
        exact insertData_heapProp ha hn hp v
      · rw [Insert_eager_nonfull hg hl' hnf]
        refine ⟨h.1, fun _ => ?_⟩
        show HeapProp less (insertData oh.h.less oh.h.data v)
        rw [h.1]
        exact insertData_heapProp ha hn hp v

theorem lazyWindowOK_extract {less : T → T → Bool} (ha : Asymm less) (hn : NegTrans less)
    {oh : OptimizedHeap T} (h : lazyWindowOK less oh) :
    lazyWindowOK less (OptimizedHeap.Extract oh).2.2 := by
  by_cases hreb : oh.useLazy = true ∧ oh.heapified = false ∧ oh.h.data ≠ []
  · rw [Extract_rebuild hreb.1 hreb.2.1 hreb.2.2]
    refine ⟨h.1, fun _ => ?_⟩
    show HeapProp less (extractData oh.h.less (buildHeapData oh.h.less oh.h.data)).2.2
    rw [h.1]
    exact extractData_heapProp ha hn (buildHeapData_heapProp ha hn _)
  · have hcase : oh.useLazy = false ∨ oh.heapified = true ∨ oh.h.data = [] := by
      by_cases h1 : oh.useLazy = true
      · by_cases h2 : oh.heapified = false
        · right; right
          by_contra h3
          exact hreb ⟨h1, h2, h3⟩
        · right; left
          cases hh : oh.heapified
          · exact absurd hh h2
          · rfl
      · left
        cases hu : oh.useLazy
        · rfl
        · exact absurd hu h1
    rw [Extract_plain hcase]
    refine ⟨h.1, fun hw => ?_⟩
    show HeapProp less (extractData oh.h.less oh.h.data).2.2
    rw [h.1]
    exact extractData_heapProp ha hn (h.2 hw)

theorem lazyWindowOK_runOps {less : T → T → Bool} (ha : Asymm less) (hn : NegTrans less)
    (ac : Nat → Nat) :
    ∀ (ops : List (HOp T)) (oh : OptimizedHeap T), lazyWindowOK less oh →
      lazyWindowOK less (OptimizedHeap.runOps ac oh ops).2 := by
  intro ops
  induction ops with
  | nil => intro oh h; exact h
  | cons op rest ih =>
    intro oh h
    cases op with
    | ins v => exact ih _ (lazyWindowOK_insert ha hn h ac v)
    | ext => exact ih _ (lazyWindowOK_extract ha hn h)

theorem heap_runOps_heapProp {less : T → T → Bool} (ha : Asymm less) (hn : NegTrans less) :
    ∀ (ops : List (HOp T)) (h : Heap T), h.less = less → HeapProp less h.data →
      (h.runOps ops).less = less ∧ HeapProp less (h.runOps ops).data := by
  intro ops
  induction ops with
  | nil => intro h h1 h2; exact ⟨h1, h2⟩
  | cons op rest ih =>
    intro h h1 h2
    cases op with
    | ins v =>
      refine ih _ h1 ?_
      show HeapProp less (insertData h.less h.data v)
      rw [h1]
      exact insertData_heapProp ha hn h2 v
    | ext =>
      refine ih _ h1 ?_
      show HeapProp less (extractData h.less h.data).2.2
      rw [h1]
      exact extractData_heapProp ha hn h2

/-! ## Claim theorems -/

/-- Helper: the generic sorted-extraction result for an arbitrary strict-weak-order
comparator: inserting `vs` into an empty heap and draining it yields a permutation of
`vs` in which no later element has strictly higher priority than an earlier one, every
extraction reports `found = true`, and one further `Extract` reports `found = false`. -/
theorem insert_then_drain_spec {less : T → T → Bool} (ha : Asymm less)
    (hn : NegTrans less) (vs : List T) :
    (((drainN vs.length ((Heap.New less).insertAll vs)).1.map Prod.fst).Perm vs ∧
     ((drainN vs.length ((Heap.New less).insertAll vs)).1.map
        Prod.fst).Pairwise (fun a b => less b a = false) ∧
     (∀ p ∈ (drainN vs.length ((Heap.New less).insertAll vs)).1, p.2 = true) ∧
     (((drainN vs.length ((Heap.New less).insertAll vs)).2.Extract)).2.1 = false) := by
  obtain ⟨h1, h2, h3⟩ := insertAll_spec ha hn vs (Heap.New less) rfl (heapProp_nil less)
  have h2' : ((Heap.New less).insertAll vs).data.Perm vs := by
    refine h2.trans ?_
    show (([] : List T) ++ vs).Perm vs
    simp
  have hlen : ((Heap.New less).insertAll vs).data.length = vs.length := h2'.length_eq
  obtain ⟨d1, d2, d3, d4, d5⟩ := drainN_spec ha hn vs.length _ h1 hlen h3
  refine ⟨d1.trans h2', d2, d3, ?_⟩
  rw [Heap.Extract_found, d4, extractData_empty]

/-- C1: for every heap built with the min (ascending) or max (descending) comparator
over a linearly ordered element type and every list of n values, inserting all n values
and then extracting n times yields the values sorted by the comparator
(highest-priority first), as a permutation of the input with `found = true` throughout;
in particular inserting [5,3,8,1,2] into a min-ordered heap and extracting five times
yields 1,2,3,5,8 in that order, and a subsequent `Extract` returns `found = false`. -/
theorem c1_sorted_extraction :
    (∀ (T : Type) [LinearOrder T] [Inhabited T] (vs : List T),
      ((((drainN vs.length ((NewMinHeap T).insertAll vs)).1.map Prod.fst).Perm vs ∧
        ((drainN vs.length ((NewMinHeap T).insertAll vs)).1.map
          Prod.fst).Pairwise (· ≤ ·) ∧
        (∀ p ∈ (drainN vs.length ((NewMinHeap T).insertAll vs)).1, p.2 = true) ∧
        (((drainN vs.length ((NewMinHeap T).insertAll vs)).2.Extract)).2.1 = false) ∧
       (((drainN vs.length ((NewMaxHeap T).insertAll vs)).1.map Prod.fst).Perm vs ∧
        ((drainN vs.length ((NewMaxHeap T).insertAll vs)).1.map
          Prod.fst).Pairwise (fun a b => b ≤ a) ∧
        (∀ p ∈ (drainN vs.length ((NewMaxHeap T).insertAll vs)).1, p.2 = true) ∧
        (((drainN vs.length ((NewMaxHeap T).insertAll vs)).2.Extract)).2.1 = false))) ∧
    ((drainN 5 ((NewMinHeap ℕ).insertAll [5, 3, 8, 1, 2])).1
        = [(1, true), (2, true), (3, true), (5, true), (8, true)] ∧
      (((drainN 5 ((NewMinHeap ℕ).insertAll [5, 3, 8, 1, 2])).2.Extract)).2.1 = false) := by
  constructor
  · intro T instL instI vs
    constructor
    · obtain ⟨p1, p2, p3, p4⟩ :=
        insert_then_drain_spec (ltComp_asymm T) (ltComp_negTrans T) vs
      refine ⟨p1, ?_, p3, p4⟩
      refine p2.imp ?_
      intro a b hab
      rw [decide_eq_false_iff_not, not_lt] at hab
      exact hab
    · obtain ⟨p1, p2, p3, p4⟩ :=
        insert_then_drain_spec (gtComp_asymm T) (gtComp_negTrans T) vs
      refine ⟨p1, ?_, p3, p4⟩
      refine p2.imp ?_
      intro a b hab
      rw [decide_eq_false_iff_not, not_lt] at hab
      exact hab
  · exact ⟨by decide, by decide⟩

theorem bool_eq_false {b : Bool} (h : ¬ b = true) : b = false := by
  cases b
  · rfl
  · exact absurd rfl h

theorem not_rebuild_cases {oh : OptimizedHeap T}
    (h : ¬ (oh.useLazy = true ∧ oh.heapified = false ∧ oh.h.data ≠ [])) :
    oh.useLazy = false ∨ oh.heapified = true ∨ oh.h.data = [] := by
  by_cases h1 : oh.useLazy = true
  · by_cases h2 : oh.heapified = false
    · right; right
      by_contra h3
      exact h ⟨h1, h2, h3⟩
    · right; left
      cases hh : oh.heapified
      · exact absurd hh h2
      · rfl
  · exact Or.inl (bool_eq_false h1)

/-- The `Extract` never changes the policy fields or the capacity. -/
theorem Extract_fields (oh : OptimizedHeap T) :
    (OptimizedHeap.Extract oh).2.2.capacity = oh.capacity ∧
    (OptimizedHeap.Extract oh).2.2.canGrow = oh.canGrow ∧
    (OptimizedHeap.Extract oh).2.2.useLazy = oh.useLazy ∧
    (OptimizedHeap.Extract oh).2.2.growthFunc = oh.growthFunc ∧
    (OptimizedHeap.Extract oh).2.2.h.less = oh.h.less := by
  by_cases hreb : oh.useLazy = true ∧ oh.heapified = false ∧ oh.h.data ≠ []
  · rw [Extract_rebuild hreb.1 hreb.2.1 hreb.2.2]
    exact ⟨rfl, rfl, rfl, rfl, rfl⟩
  · rw [Extract_plain (not_rebuild_cases hreb)]
    exact ⟨rfl, rfl, rfl, rfl, rfl⟩

/-- The `Extract` on a nonempty heap reports `found = true` and removes one element. -/
theorem Extract_nonempty (oh : OptimizedHeap T) (hne : oh.h.data ≠ []) :
    (OptimizedHeap.Extract oh).2.1 = true ∧
    (OptimizedHeap.Extract oh).2.2.h.data.length = oh.h.data.length - 1 := by
  by_cases hreb : oh.useLazy = true ∧ oh.heapified = false ∧ oh.h.data ≠ []
  · rw [Extract_rebuild hreb.1 hreb.2.1 hreb.2.2]
    have hblen : (buildHeapData oh.h.less oh.h.data).length = oh.h.data.length :=
      (buildHeapData_perm _ _).length_eq
    have hbne : buildHeapData oh.h.less oh.h.data ≠ [] := by
      intro hb
      rw [hb] at hblen
      exact hne (List.length_eq_zero.mp hblen.symm)
    constructor
    · show (extractData oh.h.less (buildHeapData oh.h.less oh.h.data)).2.1 = true
      rw [extractData_eq hbne]
    · show (extractData oh.h.less (buildHeapData oh.h.less oh.h.data)).2.2.length = _
      rw [extractData_length hbne, hblen]
  · rw [Extract_plain (not_rebuild_cases hreb)]
    constructor
    · show (extractData oh.h.less oh.h.data).2.1 = true
      rw [extractData_eq hne]
    · exact extractData_length hne

/-- Any insert below capacity succeeds. -/
theorem Insert_none_of_lt {oh : OptimizedHeap T}
    (hlt : oh.h.data.length < oh.capacity) (ac : Nat → Nat) (v : T) :
    (OptimizedHeap.Insert ac oh v).2 = none := by
  by_cases hl : oh.useLazy = true
  · rw [Insert_lazy (Or.inr hlt) hl]
  · rw [Insert_eager_nonfull (Or.inr hlt) (bool_eq_false hl) (by omega)]

/-- C2: for every strict-weak-order comparator, after every sequence of `Heap.Insert`
and `Heap.Extract` calls from a fresh heap the heap property holds, and after every
sequence of `OptimizedHeap` operations the heap property holds whenever the final state
is outside a lazy-pending window (eager mode, or marked rebuilt). -/
theorem c2_heap_property {T : Type} [Inhabited T] (less : T → T → Bool)
    (ha : Asymm less) (hn : NegTrans less) :
    (∀ ops : List (HOp T), HeapProp less ((Heap.New less).runOps ops).data) ∧
    (∀ (ac : Nat → Nat) (c : Nat) (cg lz : Bool) (f : Int → Int) (ops : List (HOp T)),
      ((OptimizedHeap.runOps ac (freshOH less c cg lz f) ops).2.useLazy = false ∨
       (OptimizedHeap.runOps ac (freshOH less c cg lz f) ops).2.heapified = true) →
      HeapProp less (OptimizedHeap.runOps ac (freshOH less c cg lz f) ops).2.h.data) := by
  constructor
  · intro ops
    exact (heap_runOps_heapProp ha hn ops (Heap.New less) rfl (heapProp_nil less)).2
  · intro ac c cg lz f ops hw
    refine (lazyWindowOK_runOps ha hn ac ops (freshOH less c cg lz f) ⟨rfl, ?_⟩).2 hw
    intro _
    exact heapProp_nil less

/-- Witness for C2 at a concrete run. -/
theorem c2_heap_property_witness :
    HeapProp (fun a b : ℕ => decide (a < b))
      ((Heap.New (fun a b : ℕ => decide (a < b))).runOps
        [.ins 5, .ins 3, .ext, .ins 1]).data ∧
    HeapProp (fun a b : ℕ => decide (a < b))
      (OptimizedHeap.runOps (fun n => n + 1)
        (freshOH (fun a b : ℕ => decide (a < b)) 4 true false (fun c => c * 2))
        [.ins 5, .ins 3, .ext, .ins 1]).2.h.data :=
  ⟨(c2_heap_property _ (ltComp_asymm ℕ) (ltComp_negTrans ℕ)).1 _,
   (c2_heap_property _ (ltComp_asymm ℕ) (ltComp_negTrans ℕ)).2 (fun n => n + 1) 4 true
     false (fun c => c * 2) [.ins 5, .ins 3, .ext, .ins 1] (Or.inl rfl)⟩

/-- C5: an eager insert at full occupancy with growth permitted succeeds, reallocates to
`growthFunc(capacity)` when that is strictly larger and to `capacity + 1` otherwise, so
the capacity strictly increases; the data is the old data (preserved in order) with the
ordinary append + sift-up insert applied. -/
theorem c5_eager_growth {T : Type} [Inhabited T] (ac : Nat → Nat)
    (oh : OptimizedHeap T) (v : T) (hg : oh.canGrow = true) (hl : oh.useLazy = false)
    (hfull : oh.h.data.length = oh.capacity) :
    (OptimizedHeap.Insert ac oh v).2 = none ∧
    (OptimizedHeap.Insert ac oh v).1.capacity =
      (if oh.growthFunc (oh.capacity : Int) ≤ (oh.capacity : Int) then oh.capacity + 1
       else (oh.growthFunc (oh.capacity : Int)).toNat) ∧
    oh.capacity < (OptimizedHeap.Insert ac oh v).1.capacity ∧
    (OptimizedHeap.Insert ac oh v).1.h.data = insertData oh.h.less oh.h.data v := by
  rw [Insert_eager_full hg hl hfull]
  refine ⟨rfl, rfl, ?_, rfl⟩
  show oh.capacity < if oh.growthFunc (oh.capacity : Int) ≤ (oh.capacity : Int)
    then oh.capacity + 1 else (oh.growthFunc (oh.capacity : Int)).toNat
  split_ifs with h
  · omega
  · omega

/-- Witness for C5: a full growable eager heap of capacity 1 grows to 2 on insert. -/
theorem c5_eager_growth_witness :
    (OptimizedHeap.Insert (fun n => n + 1) c5OH 3).2 = none ∧
    (OptimizedHeap.Insert (fun n => n + 1) c5OH 3).1.capacity =
      (if c5OH.growthFunc (c5OH.capacity : Int) ≤ (c5OH.capacity : Int)
       then c5OH.capacity + 1 else (c5OH.growthFunc (c5OH.capacity : Int)).toNat) ∧
    c5OH.capacity < (OptimizedHeap.Insert (fun n => n + 1) c5OH 3).1.capacity ∧
    (OptimizedHeap.Insert (fun n => n + 1) c5OH 3).1.h.data =
      insertData c5OH.h.less c5OH.h.data 3 :=
  c5_eager_growth (fun n => n + 1) c5OH 3 rfl rfl rfl

/-- C6: a full fixed-capacity heap rejects every insert with the capacity-reached error,
leaving the state unchanged; it stays usable: extraction succeeds, and after it frees a
slot a subsequent insert succeeds. -/
theorem c6_fixed_capacity {T : Type} [Inhabited T] (oh : OptimizedHeap T)
    (hg : oh.canGrow = false) (hfull : oh.h.data.length = oh.capacity)
    (hpos : 0 < oh.capacity) :
    (∀ (ac : Nat → Nat) (v : T),
      OptimizedHeap.Insert ac oh v = (oh, some .capacityReached)) ∧
    (OptimizedHeap.Extract oh).2.1 = true ∧
    (∀ (ac : Nat → Nat) (w : T),
      (OptimizedHeap.Insert ac (OptimizedHeap.Extract oh).2.2 w).2 = none) := by
  have hne : oh.h.data ≠ [] := by
    intro hd
    rw [hd] at hfull
    simp at hfull
    omega
  obtain ⟨hfound, hlen⟩ := Extract_nonempty oh hne
  obtain ⟨hcap, _, _, _, _⟩ := Extract_fields oh
  refine ⟨fun ac v => Insert_reject hg (le_of_eq hfull.symm) ac v, hfound, ?_⟩
  intro ac w
  refine Insert_none_of_lt ?_ ac w
  rw [hlen, hcap, hfull]
  omega

/-- Witness for C6 on a concrete full fixed-capacity heap. -/
theorem c6_fixed_capacity_witness :
    OptimizedHeap.Insert (fun n => n + 1) c6OH 3 = (c6OH, some .capacityReached) ∧
    (OptimizedHeap.Extract c6OH).2.1 = true ∧
    (OptimizedHeap.Insert (fun n => n + 1) (OptimizedHeap.Extract c6OH).2.2 4).2 = none :=
  ⟨(c6_fixed_capacity c6OH rfl rfl (by decide)).1 (fun n => n + 1) 3,
   (c6_fixed_capacity c6OH rfl rfl (by decide)).2.1,
   (c6_fixed_capacity c6OH rfl rfl (by decide)).2.2 (fun n => n + 1) 4⟩

theorem validateOptions_neg {c : OHConfig} (h : c.cap < 0) :
    validateOptions c = some .negativeCap := by
  unfold validateOptions
  rw [if_pos h]

theorem validateOptions_zero {c : OHConfig} (h : c.cap = 0) :
    validateOptions c = some .zeroCap := by
  unfold validateOptions
  rw [if_neg (by omega), if_pos h]

theorem validateOptions_pos {c : OHConfig} (h : 1 ≤ c.cap) :
    validateOptions c = none := by
  unfold validateOptions
  rw [if_neg (by omega), if_neg (by omega)]

/-- C7: construction fails with the negative-capacity error when the configured
capacity is negative, with the zero-capacity error when it is zero, and otherwise
succeeds with an empty backing heap and the requested capacity pre-reserved. -/
theorem c7_construction {T : Type} [Inhabited T] (less : T → T → Bool)
    (opts : List Opt) :
    ((opts.foldl (fun acc o => o acc) defaultOptimizedHeap).cap < 0 →
      NewOptimizedHeap less opts = .error .negativeCap) ∧
    ((opts.foldl (fun acc o => o acc) defaultOptimizedHeap).cap = 0 →
      NewOptimizedHeap less opts = .error .zeroCap) ∧
    (1 ≤ (opts.foldl (fun acc o => o acc) defaultOptimizedHeap).cap →
      NewOptimizedHeap less opts = .ok
        { h := { data := [], less := less }
          capacity := (opts.foldl (fun acc o => o acc) defaultOptimizedHeap).cap.toNat
          canGrow := (opts.foldl (fun acc o => o acc) defaultOptimizedHeap).canGrow
          useLazy := (opts.foldl (fun acc o => o acc) defaultOptimizedHeap).useLazy
          growthFunc := (opts.foldl (fun acc o => o acc) defaultOptimizedHeap).growthFunc
          heapified := false }) := by
  refine ⟨?_, ?_, ?_⟩
  · intro hneg
    simp only [NewOptimizedHeap, validateOptions_neg hneg]
  · intro hzero
    simp only [NewOptimizedHeap, validateOptions_zero hzero]
  · intro hpos
    simp only [NewOptimizedHeap, validateOptions_pos hpos]

/-- Witness for C7: capacity -1 and 0 are rejected with the respective errors, and the
default configuration succeeds with capacity 16. -/
theorem c7_construction_witness :
    NewOptimizedHeap (fun a b : ℕ => decide (a < b)) [WithCapacity (-1) true]
      = .error .negativeCap ∧
    NewOptimizedHeap (fun a b : ℕ => decide (a < b)) [WithCapacity 0 true]
      = .error .zeroCap ∧
    NewOptimizedHeap (fun a b : ℕ => decide (a < b)) []
      = .ok
        { h := { data := [], less := fun a b : ℕ => decide (a < b) }
          capacity := ((([] : List Opt).foldl (fun acc o => o acc)
            defaultOptimizedHeap).cap).toNat
          canGrow := (([] : List Opt).foldl (fun acc o => o acc)
            defaultOptimizedHeap).canGrow
          useLazy := (([] : List Opt).foldl (fun acc o => o acc)
            defaultOptimizedHeap).useLazy
          growthFunc := (([] : List Opt).foldl (fun acc o => o acc)
            defaultOptimizedHeap).growthFunc
          heapified := false } :=
  ⟨(c7_construction _ [WithCapacity (-1) true]).1 (by decide),
   (c7_construction _ [WithCapacity 0 true]).2.1 (by decide),
   (c7_construction _ []).2.2 (by decide)⟩

theorem Heap.Extract_empty {h : Heap T} (hd : h.data = []) :
    h.Extract = (default, false, h) := by
  show ((extractData h.less h.data).1, (extractData h.less h.data).2.1,
    { h with data := (extractData h.less h.data).2.2 }) = (default, false, h)
  have he : extractData h.less h.data = (default, false, h.data) := by
    rw [hd]
    rfl
  rw [he]

/-- C8: extracting from an empty `Heap` or `OptimizedHeap` returns the element type's
zero value with `found = false` and leaves the state unchanged; the embedding returns no
error (and Go signals only through the boolean, never a panic). -/
theorem c8_empty_extract {T : Type} [Inhabited T] :
    (∀ h : Heap T, h.data = [] → h.Extract = (default, false, h)) ∧
    (∀ oh : OptimizedHeap T, oh.h.data = [] →
      OptimizedHeap.Extract oh = (default, false, oh)) := by
  refine ⟨fun h hd => Heap.Extract_empty hd, ?_⟩
  intro oh hd
  rw [Extract_plain (Or.inr (Or.inr hd)), Heap.Extract_empty hd]

/-- Witness for C8 on concrete empty heaps. -/
theorem c8_empty_extract_witness :
    (Heap.New (fun a b : ℕ => decide (a < b))).Extract
      = (default, false, Heap.New (fun a b : ℕ => decide (a < b))) ∧
    OptimizedHeap.Extract
        (freshOH (fun a b : ℕ => decide (a < b)) 4 true true (fun c => c * 2))
      = (default, false,
         freshOH (fun a b : ℕ => decide (a < b)) 4 true true (fun c => c * 2)) :=
  ⟨(c8_empty_extract).1 _ rfl, (c8_empty_extract).2 _ rfl⟩

/-- C9: in lazy mode, `Extract` performs the bulk bottom-up rebuild exactly when the
heap is marked not-yet-rebuilt and nonempty — the rebuilt array satisfies the heap
property and the post-state is marked rebuilt — and otherwise performs no rebuild,
delegating directly to the wrapped heap with the flag unchanged. -/
theorem c9_lazy_rebuild {T : Type} [Inhabited T] (oh : OptimizedHeap T)
    (ha : Asymm oh.h.less) (hn : NegTrans oh.h.less) (hl : oh.useLazy = true) :
    (oh.heapified = false → oh.h.data ≠ [] →
      HeapProp oh.h.less oh.buildHeap.h.data ∧
      (OptimizedHeap.Extract oh).2.2.heapified = true ∧
      OptimizedHeap.Extract oh =
        ((({ oh.buildHeap with heapified := true } : OptimizedHeap T).h.Extract).1,
         (({ oh.buildHeap with heapified := true } : OptimizedHeap T).h.Extract).2.1,
         { ({ oh.buildHeap with heapified := true } : OptimizedHeap T) with
            h := (({ oh.buildHeap with heapified := true } :
              OptimizedHeap T).h.Extract).2.2 })) ∧
    (oh.heapified = true ∨ oh.h.data = [] →
      OptimizedHeap.Extract oh =
        ((oh.h.Extract).1, (oh.h.Extract).2.1, { oh with h := (oh.h.Extract).2.2 }) ∧
      (OptimizedHeap.Extract oh).2.2.heapified = oh.heapified) := by
  constructor
  · intro hh hne
    refine ⟨buildHeapData_heapProp ha hn _, ?_, Extract_rebuild hl hh hne⟩
    rw [Extract_rebuild hl hh hne]
  · intro hcase
    have hplain : oh.useLazy = false ∨ oh.heapified = true ∨ oh.h.data = [] :=
      Or.inr hcase
    refine ⟨Extract_plain hplain, ?_⟩
    rw [Extract_plain hplain]

/-- Witness for C9 on a concrete pending lazy heap. -/
theorem c9_lazy_rebuild_witness :
    HeapProp c9OH.h.less c9OH.buildHeap.h.data ∧
    (OptimizedHeap.Extract c9OH).2.2.heapified = true ∧
    OptimizedHeap.Extract c9OH =
      ((({ c9OH.buildHeap with heapified := true } : OptimizedHeap ℕ).h.Extract).1,
       (({ c9OH.buildHeap with heapified := true } : OptimizedHeap ℕ).h.Extract).2.1,
       { ({ c9OH.buildHeap with heapified := true } : OptimizedHeap ℕ) with
          h := (({ c9OH.buildHeap with heapified := true } :
            OptimizedHeap ℕ).h.Extract).2.2 }) :=
  (c9_lazy_rebuild c9OH (ltComp_asymm ℕ) (ltComp_negTrans ℕ) rfl).1 rfl
    (by decide)

/-- C4 counterexample: a lazy insert at full occupancy does not grow according to the
eager-mode growth policy.  With capacity 1 full and `growthFunc ≡ 50`, the eager policy
would give capacity 50, but the lazy path performs a bare `append` (runtime
reallocation, here modelled by `appendCap n = n + 1`), giving capacity 2; moreover the
resulting capacity is identical under a different growth function (`≡ 99`, eager policy
99), showing the growth function is never consulted on the lazy path. -/
theorem c4_counterexample :
    (OptimizedHeap.Insert (fun n => n + 1) c4OH 7).1.capacity = 2 ∧
    (if c4OH.growthFunc (c4OH.capacity : Int) ≤ (c4OH.capacity : Int)
     then c4OH.capacity + 1 else (c4OH.growthFunc (c4OH.capacity : Int)).toNat) = 50 ∧
    (2 : ℕ) ≠ 50 ∧
    (OptimizedHeap.Insert (fun n => n + 1) c4OH 7).1.capacity =
      (OptimizedHeap.Insert (fun n => n + 1)
        { c4OH with growthFunc := fun _ => 99 } 7).1.capacity := by
  exact ⟨by decide, by decide, by decide, by decide⟩

/-- C4 (amended): in lazy mode with growth permitted, an `Insert` arriving at full
occupancy never consults the growth function: it appends the value via the runtime's
`append`, whose implementation-defined reallocation policy is the parameter `ac`, so
the new capacity is `ac capacity`; the heap is marked not-yet-rebuilt and the insert
succeeds.  (The growth-function clause of the original claim fails; see the
counterexample.) -/
theorem c4_amended {T : Type} [Inhabited T] (ac : Nat → Nat) (oh : OptimizedHeap T)
    (v : T) (hl : oh.useLazy = true) (hg : oh.canGrow = true)
    (hfull : oh.h.data.length = oh.capacity) :
    OptimizedHeap.Insert ac oh v =
      ({ oh with
          h := { oh.h with data := oh.h.data ++ [v] }
          capacity := ac oh.capacity
          heapified := false }, none) := by
  rw [Insert_lazy (Or.inl hg) hl]
  show ({ oh.insertOnly ac v with heapified := false }, none) = _
  unfold OptimizedHeap.insertOnly
  rw [if_pos (by omega)]

/-- Witness for the amended C4 at the counterexample state. -/
theorem c4_amended_witness :
    OptimizedHeap.Insert (fun n => n + 1) c4OH 7 =
      ({ c4OH with
          h := { c4OH.h with data := c4OH.h.data ++ [7] }
          capacity := (fun n => n + 1) c4OH.capacity
          heapified := false }, none) :=
  c4_amended (fun n => n + 1) c4OH 7 rfl rfl rfl

theorem getElemQ_eq_idx {l : List T} {i : Nat} (h : i < l.length) :
    l[i]? = some (idx l i) := by
  rw [List.getElem?_eq_getElem h, idx_eq_getElem h]

theorem swapLq_eq {l : List T} {i j : Nat} (hi : i < l.length) (hj : j < l.length) :
    swapLq l i j = some (swapL l i j) := by
  unfold swapLq swapL
  rw [getElemQ_eq_idx hi, getElemQ_eq_idx hj]
  rfl

theorem downTargetChecked_eq (less : T → T → Bool) (l : List T) (i : Nat) :
    downTargetChecked less l i = some (downTarget less l i) := by
  unfold downTargetChecked downTarget
  have e1 : (if leftChildIndex i < l.length then do
        let a ← l[leftChildIndex i]?
        let b ← l[i]?
        pure (if less a b then leftChildIndex i else i)
      else pure i) =
      some (if leftChildIndex i < l.length ∧
          less (idx l (leftChildIndex i)) (idx l i) = true
        then leftChildIndex i else i) := by
    by_cases h1 : leftChildIndex i < l.length
    · have hi : i < l.length := by
        simp only [leftChildIndex] at h1
        omega
      rw [if_pos h1, getElemQ_eq_idx h1, getElemQ_eq_idx hi]
      show some (if less (idx l (leftChildIndex i)) (idx l i) then leftChildIndex i
        else i) = _
      by_cases hb : less (idx l (leftChildIndex i)) (idx l i) = true
      · rw [if_pos hb, if_pos ⟨h1, hb⟩]
      · rw [if_neg (by simpa using hb), if_neg (fun hc => hb hc.2)]
    · rw [if_neg h1, if_neg (fun hc => h1 hc.1)]
      rfl
  rw [e1]
  rw [Option.some_bind]
  set c1 := if leftChildIndex i < l.length ∧
      less (idx l (leftChildIndex i)) (idx l i) = true then leftChildIndex i else i
    with hc1def
  by_cases h2 : rightChildIndex i < l.length
  · have hc1 : c1 < l.length := by
      rw [hc1def]
      split_ifs with hg
      · exact hg.1
      · simp only [rightChildIndex] at h2
        omega
    rw [if_pos h2, getElemQ_eq_idx h2, getElemQ_eq_idx hc1]
    show some (if less (idx l (rightChildIndex i)) (idx l c1) then rightChildIndex i
      else c1) = _
    by_cases hb : less (idx l (rightChildIndex i)) (idx l c1) = true
    · rw [if_pos hb, if_pos ⟨h2, hb⟩]
    · rw [if_neg (by simpa using hb), if_neg (fun hc => hb hc.2)]
  · rw [if_neg h2, if_neg (fun hc => h2 hc.1)]
    rfl

theorem heapifyDownAuxChecked_eq (less : T → T → Bool) :
    ∀ (fuel : Nat) (l : List T) (i : Nat),
      heapifyDownAuxChecked less fuel l i = some (heapifyDownAux less fuel l i) := by
  intro fuel
  induction fuel with
  | zero => intro l i; rfl
  | succ fuel ih =>
    intro l i
    simp only [heapifyDownAuxChecked, downTargetChecked_eq, Option.bind_eq_bind,
      Option.some_bind]
    by_cases hne : downTarget less l i ≠ i
    · have hb := downTarget_gt hne
      rw [if_pos hne, swapLq_eq (by omega) hb.2]
      simp only [Option.bind_eq_bind, Option.some_bind]
      rw [ih]
      simp only [heapifyDownAux, if_pos hne]
    · rw [if_neg hne]
      simp only [heapifyDownAux, if_neg hne]
      rfl

theorem heapifyUpAuxChecked_eq (less : T → T → Bool) :
    ∀ (fuel : Nat) (l : List T) (i : Nat), i < l.length →
      heapifyUpAuxChecked less fuel l i = some (heapifyUpAux less fuel l i) := by
  intro fuel
  induction fuel with
  | zero => intro l i _; rfl
  | succ fuel ih =>
    intro l i hi
    by_cases h0 : 0 < i
    · have hp : parentIndex i < i := by
        have := Nat.div_le_self (i - 1) 2
        simp only [parentIndex]
        omega
      simp only [heapifyUpAuxChecked, heapifyUpAux, if_pos h0, getElemQ_eq_idx hi,
        getElemQ_eq_idx (show parentIndex i < l.length by omega), Option.bind_eq_bind,
        Option.some_bind]
      by_cases hb : less (idx l i) (idx l (parentIndex i)) = true
      · rw [if_pos hb, if_pos hb, swapLq_eq hi (by omega)]
        simp only [Option.bind_eq_bind, Option.some_bind]
        exact ih _ _ (by rw [swapL_length]; omega)
      · rw [if_neg (by simpa using hb), if_neg (by simpa using hb)]
        rfl
    · simp only [heapifyUpAuxChecked, heapifyUpAux, if_neg h0]
      rfl

theorem heapifyDownChecked_eq (less : T → T → Bool) (l : List T) (i : Nat) :
    heapifyDownChecked less l i = some (heapifyDown less l i) :=
  heapifyDownAuxChecked_eq less l.length l i

theorem insertDataChecked_eq (less : T → T → Bool) (l : List T) (v : T) :
    insertDataChecked less l v = some (insertData less l v) := by
  unfold insertDataChecked insertData heapifyUpChecked heapifyUp
  refine heapifyUpAuxChecked_eq less _ _ _ ?_
  simp

theorem extractDataChecked_eq (less : T → T → Bool) (l : List T) :
    extractDataChecked less l = some (extractData less l) := by
  unfold extractDataChecked extractData
  by_cases hz : l.length = 0
  · rw [if_pos hz, if_pos hz]
  · have hpos : 0 < l.length := by omega
    rw [if_neg hz, if_neg hz, getElemQ_eq_idx hpos, getElemQ_eq_idx (by omega)]
    show (do
      let l2 ← heapifyDownChecked less ((l.set 0 (idx l (l.length - 1))).take
        (l.length - 1)) 0
      pure ((idx l 0 : T), true, l2)) = _
    rw [heapifyDownChecked_eq]
    rfl

theorem heapifyRangeChecked_eq (less : T → T → Bool) :
    ∀ (k : Nat) (l : List T),
      heapifyRangeChecked less k l = some (heapifyRange less k l) := by
  intro k
  induction k with
  | zero => intro l; rfl
  | succ k ih =>
    intro l
    show (do
      let l2 ← heapifyDownChecked less l k
      heapifyRangeChecked less k l2) = _
    rw [heapifyDownChecked_eq]
    show heapifyRangeChecked less k _ = _
    rw [ih]
    rfl

theorem buildHeapDataChecked_eq (less : T → T → Bool) (l : List T) :
    buildHeapDataChecked less l = some (buildHeapData less l) :=
  heapifyRangeChecked_eq less _ l

/-- C10: every slice access performed by `Insert`, `Extract`, `heapifyUp` (at the index
`Insert` calls it with, i.e. in range), `heapifyDown` (at any index) and `buildHeap` is
in bounds: the `Option`-indexed embedding never takes the out-of-range branch and
returns exactly the total embedding's result. -/
theorem c10_bounds_safety {T : Type} [Inhabited T] (less : T → T → Bool) (l : List T)
    (v : T) (i : Nat) (hi : i < l.length) :
    insertDataChecked less l v = some (insertData less l v) ∧
    extractDataChecked less l = some (extractData less l) ∧
    heapifyUpChecked less l i = some (heapifyUp less l i) ∧
    (∀ j, heapifyDownChecked less l j = some (heapifyDown less l j)) ∧
    buildHeapDataChecked less l = some (buildHeapData less l) :=
  ⟨insertDataChecked_eq less l v, extractDataChecked_eq less l,
   heapifyUpAuxChecked_eq less (i + 1) l i hi,
   fun j => heapifyDownChecked_eq less l j, buildHeapDataChecked_eq less l⟩

/-- Witness for C10 on a concrete list and in-range index. -/
theorem c10_bounds_safety_witness :
    insertDataChecked (fun a b : ℕ => decide (a < b)) [3, 1, 2] 0
      = some (insertData (fun a b : ℕ => decide (a < b)) [3, 1, 2] 0) ∧
    extractDataChecked (fun a b : ℕ => decide (a < b)) [3, 1, 2]
      = some (extractData (fun a b : ℕ => decide (a < b)) [3, 1, 2]) ∧
    heapifyUpChecked (fun a b : ℕ => decide (a < b)) [3, 1, 2] 1
      = some (heapifyUp (fun a b : ℕ => decide (a < b)) [3, 1, 2] 1) ∧
    (∀ j, heapifyDownChecked (fun a b : ℕ => decide (a < b)) [3, 1, 2] j
      = some (heapifyDown (fun a b : ℕ => decide (a < b)) [3, 1, 2] j)) ∧
    buildHeapDataChecked (fun a b : ℕ => decide (a < b)) [3, 1, 2]
      = some (buildHeapData (fun a b : ℕ => decide (a < b)) [3, 1, 2]) :=
  c10_bounds_safety (fun a b : ℕ => decide (a < b)) [3, 1, 2] 0 1 (by decide)

/-- C3 counterexample: with the strict-weak-order comparator `a/2 < b/2` (distinct
values 0 and 1 tie), inserting 2, 3, 0, 1 and extracting once yields value 0 from the
eager heap but value 1 from the lazy heap — the extraction sequences differ even though
both heaps were built with the same options apart from laziness. -/
theorem c3_counterexample :
    (OptimizedHeap.runOps (fun n => n + 1) c3Eager c3Ops).1 = [(0, true)] ∧
    (OptimizedHeap.runOps (fun n => n + 1) c3Lazy c3Ops).1 = [(1, true)] ∧
    [((0 : ℕ), true)] ≠ [((1 : ℕ), true)] := by
  exact ⟨by decide, by decide, by decide⟩

theorem insertOnly_capacity_nonfull {lz : OptimizedHeap T}
    (h : lz.h.data.length < lz.capacity) (ac : Nat → Nat) (v : T) :
    (lz.insertOnly ac v).capacity = lz.capacity := by
  show (if lz.capacity < lz.h.data.length + 1 then ac lz.capacity else lz.capacity) = _
  rw [if_neg (by omega)]

theorem C3Inv_insert {less : T → T → Bool} (ha : Asymm less) (hn : NegTrans less)
    {e lz : OptimizedHeap T} (h : C3Inv less e lz) (ac : Nat → Nat) (v : T) :
    C3Inv less (OptimizedHeap.Insert ac e v).1 (OptimizedHeap.Insert ac lz v).1 := by
  have hlen : e.h.data.length = lz.h.data.length := h.perm.length_eq
  by_cases hcg : e.canGrow = true
  · -- growth permitted: neither side can reject
    have hcgl : lz.canGrow = true := h.cg_eq ▸ hcg
    have hlz := Insert_lazy (Or.inl hcgl) h.lz_lazy ac v
    have hedata : (OptimizedHeap.Insert ac e v).1.h.data
        = insertData e.h.less e.h.data v ∧
        (OptimizedHeap.Insert ac e v).1.h.less = e.h.less ∧
        (OptimizedHeap.Insert ac e v).1.useLazy = e.useLazy ∧
        (OptimizedHeap.Insert ac e v).1.canGrow = e.canGrow := by
      by_cases hfull : e.h.data.length = e.capacity
      · rw [Insert_eager_full hcg h.e_eager hfull]
        exact ⟨rfl, rfl, rfl, rfl⟩
      · rw [Insert_eager_nonfull (Or.inl hcg) h.e_eager hfull]
        exact ⟨rfl, rfl, rfl, rfl⟩
    obtain ⟨he1, he2, he3, he4⟩ := hedata
    refine ⟨by rw [he2, h.e_less], by rw [hlz]; exact h.lz_less, by rw [he3, h.e_eager],
      by rw [hlz]; exact h.lz_lazy, ?_, ?_, ?_, ?_, ?_⟩
    · rw [he1, hlz]
      show (insertData e.h.less e.h.data v).Perm (lz.h.data ++ [v])
      rw [h.e_less]
      exact (insertData_perm less e.h.data v).trans (h.perm.append_right [v])
    · rw [he1, h.e_less]
      exact insertData_heapProp ha hn h.e_heap v
    · rw [hlz]
      intro habs
      exact absurd habs (by simp)
    · rw [he4, hlz]
      exact h.cg_eq
    · rw [he4]
      intro habs
      rw [hcg] at habs
      exact absurd habs (by simp)
  · -- fixed capacity
    have hcg' : e.canGrow = false := bool_eq_false hcg
    have hcgl : lz.canGrow = false := h.cg_eq ▸ hcg'
    have hcap : e.capacity = lz.capacity := h.cap_eq hcg'
    by_cases hfull : e.capacity ≤ e.h.data.length
    · -- both sides reject and stay unchanged
      rw [Insert_reject hcg' hfull, Insert_reject hcgl (by omega)]
      exact h
    · -- both sides accept without growing
      have hlt : e.h.data.length < e.capacity := by omega
      have hltl : lz.h.data.length < lz.capacity := by omega
      have hlz := Insert_lazy (Or.inr hltl) h.lz_lazy ac v
      rw [Insert_eager_nonfull (Or.inr hlt) h.e_eager (by omega), hlz]
      refine ⟨h.e_less, h.lz_less, h.e_eager, h.lz_lazy, ?_, ?_, ?_, h.cg_eq, ?_⟩
      · show (insertData e.h.less e.h.data v).Perm (lz.h.data ++ [v])
        rw [h.e_less]
        exact (insertData_perm less e.h.data v).trans (h.perm.append_right [v])
      · show HeapProp less (insertData e.h.less e.h.data v)
        rw [h.e_less]
        exact insertData_heapProp ha hn h.e_heap v
      · intro habs
        exact absurd habs (by simp)
      · intro _
        show e.capacity = (lz.insertOnly ac v).capacity
        rw [insertOnly_capacity_nonfull hltl]
        exact hcap

theorem idx_zero_mem {l : List T} (hne : l ≠ []) : idx l 0 ∈ l := by
  have hpos : 0 < l.length := List.length_pos.mpr hne
  rw [idx_eq_getElem hpos]
  exact List.getElem_mem hpos

/-- The `Extract` on a nonempty `OptimizedHeap` whose state is either heap-valid or
lazy-pending behaves like extraction from a heap-ordered permutation `d1` of its data:
it returns the root of `d1` with `found = true`, and the remainder completes `d1`. -/
theorem Extract_spec_oh {less : T → T → Bool} (ha : Asymm less) (hn : NegTrans less)
    {oh : OptimizedHeap T} (hless : oh.h.less = less) (hne : oh.h.data ≠ [])
    (hp : (oh.useLazy = false ∨ oh.heapified = true) → HeapProp less oh.h.data) :
    ∃ d1 : List T, d1.Perm oh.h.data ∧ HeapProp less d1 ∧
      (OptimizedHeap.Extract oh).1 = idx d1 0 ∧
      (OptimizedHeap.Extract oh).2.1 = true ∧
      ((OptimizedHeap.Extract oh).1 :: (OptimizedHeap.Extract oh).2.2.h.data).Perm d1 ∧
      HeapProp less (OptimizedHeap.Extract oh).2.2.h.data ∧
      (OptimizedHeap.Extract oh).2.2.h.less = less := by
  by_cases hreb : oh.useLazy = true ∧ oh.heapified = false ∧ oh.h.data ≠ []
  · -- pending: the rebuilt array is the heap-ordered permutation
    refine ⟨buildHeapData less oh.h.data, buildHeapData_perm less oh.h.data,
      buildHeapData_heapProp ha hn _, ?_⟩
    have hbne : buildHeapData less oh.h.data ≠ [] := by
      intro hb
      have := (buildHeapData_perm less oh.h.data).length_eq
      rw [hb] at this
      exact hne (List.length_eq_zero.mp this.symm)
    rw [Extract_rebuild hreb.1 hreb.2.1 hreb.2.2]
    have hbshow : oh.buildHeap.h.data = buildHeapData less oh.h.data := by
      show buildHeapData oh.h.less oh.h.data = _
      rw [hless]
    have hbless : oh.buildHeap.h.less = less := hless
    refine ⟨?_, ?_, ?_, ?_, ?_⟩
    · show (extractData oh.h.less oh.buildHeap.h.data).1 = _
      rw [hbshow, hless, extractData_eq hbne]
    · show (extractData oh.h.less oh.buildHeap.h.data).2.1 = _
      rw [hbshow, hless, extractData_eq hbne]
    · show ((extractData oh.h.less oh.buildHeap.h.data).1 ::
        (extractData oh.h.less oh.buildHeap.h.data).2.2).Perm _
      rw [hbshow, hless]
      exact extractData_perm hbne
    · show HeapProp less (extractData oh.h.less oh.buildHeap.h.data).2.2
      rw [hbshow, hless]
      exact extractData_heapProp ha hn (buildHeapData_heapProp ha hn _)
    · exact hless
  · -- not pending: the data is already heap-ordered
    have hvalid : HeapProp less oh.h.data := by
      rcases not_rebuild_cases hreb with hc | hc | hc
      · exact hp (Or.inl hc)
      · exact hp (Or.inr hc)
      · exact absurd hc hne
    refine ⟨oh.h.data, List.Perm.refl _, hvalid, ?_⟩
    rw [Extract_plain (not_rebuild_cases hreb)]
    refine ⟨?_, ?_, ?_, ?_, hless⟩
    · show (extractData oh.h.less oh.h.data).1 = _
      rw [hless, extractData_eq hne]
    · show (extractData oh.h.less oh.h.data).2.1 = _
      rw [hless, extractData_eq hne]
    · show ((extractData oh.h.less oh.h.data).1 ::
        (extractData oh.h.less oh.h.data).2.2).Perm _
      rw [hless]
      exact extractData_perm hne
    · show HeapProp less (extractData oh.h.less oh.h.data).2.2
      rw [hless]
      exact extractData_heapProp ha hn hvalid

theorem C3Inv_extract {less : T → T → Bool} (ha : Asymm less) (hn : NegTrans less)
    (ht : TieEq less) {e lz : OptimizedHeap T} (h : C3Inv less e lz) :
    (OptimizedHeap.Extract e).1 = (OptimizedHeap.Extract lz).1 ∧
    (OptimizedHeap.Extract e).2.1 = (OptimizedHeap.Extract lz).2.1 ∧
    C3Inv less (OptimizedHeap.Extract e).2.2 (OptimizedHeap.Extract lz).2.2 := by
  by_cases hemp : e.h.data = []
  · -- both heaps are empty: both return (zero, false) and are unchanged
    have hlemp : lz.h.data = [] := by
      have := h.perm.length_eq
      rw [hemp] at this
      exact List.length_eq_zero.mp this.symm
    rw [Extract_plain (Or.inl h.e_eager), Extract_plain (Or.inr (Or.inr hlemp)),
      Heap.Extract_empty hemp, Heap.Extract_empty hlemp]
    exact ⟨rfl, rfl, h.e_less, h.lz_less, h.e_eager, h.lz_lazy, h.perm, h.e_heap,
      h.lz_heap, h.cg_eq, h.cap_eq⟩
  · have hlne : lz.h.data ≠ [] := by
      intro hd
      have := h.perm.length_eq
      rw [hd] at this
      simp at this
      exact hemp this
    obtain ⟨de, pde, hpe, rooe, fnde, cone, hpre, hlse⟩ :=
      Extract_spec_oh ha hn h.e_less hemp (fun _ => h.e_heap)
    obtain ⟨dl, pdl, hpl, rool, fndl, conl, hprl, hlsl⟩ :=
      Extract_spec_oh ha hn h.lz_less hlne (fun hc => by
        rcases hc with hc | hc
        · rw [h.lz_lazy] at hc
          exact absurd hc (by simp)
        · exact h.lz_heap hc)
    have hde_ne : de ≠ [] := by
      intro hd
      have := pde.length_eq
      rw [hd] at this
      exact hemp (List.length_eq_zero.mp this.symm)
    have hdl_ne : dl ≠ [] := by
      intro hd
      have := pdl.length_eq
      rw [hd] at this
      exact hlne (List.length_eq_zero.mp this.symm)
    have hdperm : de.Perm dl := pde.trans (h.perm.trans pdl.symm)
    have hroot_eq : idx de 0 = idx dl 0 := by
      have hmem_e : idx de 0 ∈ dl := hdperm.mem_iff.mp (idx_zero_mem hde_ne)
      have hmem_l : idx dl 0 ∈ de := hdperm.symm.mem_iff.mp (idx_zero_mem hdl_ne)
      have h1 : less (idx de 0) (idx dl 0) = false :=
        heapProp_root_min ha hn hpl _ hmem_e
      have h2 : less (idx dl 0) (idx de 0) = false :=
        heapProp_root_min ha hn hpe _ hmem_l
      exact ht _ _ h1 h2
    have hout : (OptimizedHeap.Extract e).1 = (OptimizedHeap.Extract lz).1 := by
      rw [rooe, rool, hroot_eq]
    refine ⟨hout, by rw [fnde, fndl], ?_⟩
    obtain ⟨ecap, ecg, eul, _, _⟩ := Extract_fields e
    obtain ⟨lcap, lcg, lul, _, _⟩ := Extract_fields lz
    refine ⟨hlse, hlsl, by rw [eul]; exact h.e_eager, by rw [lul]; exact h.lz_lazy,
      ?_, hpre, fun _ => hprl, by rw [ecg, lcg]; exact h.cg_eq, ?_⟩
    · -- the remainders are permutations of each other
      have hcons : ((OptimizedHeap.Extract e).1 ::
          (OptimizedHeap.Extract e).2.2.h.data).Perm
          ((OptimizedHeap.Extract lz).1 :: (OptimizedHeap.Extract lz).2.2.h.data) :=
        cone.trans (hdperm.trans conl.symm)
      rw [hout] at hcons
      exact hcons.cons_inv
    · intro hcg
      rw [ecap, lcap]
      exact h.cap_eq (by rw [← ecg]; exact hcg)

theorem C3Inv_runOps {less : T → T → Bool} (ha : Asymm less) (hn : NegTrans less)
    (ht : TieEq less) (ac : Nat → Nat) :
    ∀ (ops : List (HOp T)) (e lz : OptimizedHeap T), C3Inv less e lz →
      (OptimizedHeap.runOps ac e ops).1 = (OptimizedHeap.runOps ac lz ops).1 := by
  intro ops
  induction ops with
  | nil => intro e lz _; rfl
  | cons op rest ih =>
    intro e lz h
    cases op with
    | ins v =>
      show (OptimizedHeap.runOps ac (OptimizedHeap.Insert ac e v).1 rest).1 =
        (OptimizedHeap.runOps ac (OptimizedHeap.Insert ac lz v).1 rest).1
      exact ih _ _ (C3Inv_insert ha hn h ac v)
    | ext =>
      obtain ⟨h1, h2, h3⟩ := C3Inv_extract ha hn ht h
      show ((OptimizedHeap.Extract e).1, (OptimizedHeap.Extract e).2.1) ::
          (OptimizedHeap.runOps ac (OptimizedHeap.Extract e).2.2 rest).1 =
        ((OptimizedHeap.Extract lz).1, (OptimizedHeap.Extract lz).2.1) ::
          (OptimizedHeap.runOps ac (OptimizedHeap.Extract lz).2.2 rest).1
      rw [h1, h2, ih _ _ h3]

/-- C3 (amended): for every comparator that is a strict weak order in which ties imply
equality (a strict total order) — but not for every strict-weak-order comparator, see
the counterexample — the `(value, found)` sequences returned by the `Extract` calls of
any interleaved operation sequence are identical with lazy heapification enabled or
disabled, all other options equal. -/
theorem c3_amended {T : Type} [Inhabited T] (less : T → T → Bool) (ha : Asymm less)
    (hn : NegTrans less) (ht : TieEq less) (ac : Nat → Nat) (c : Nat) (cg : Bool)
    (f : Int → Int) (ops : List (HOp T)) :
    (OptimizedHeap.runOps ac (freshOH less c cg false f) ops).1 =
    (OptimizedHeap.runOps ac (freshOH less c cg true f) ops).1 := by
  refine C3Inv_runOps ha hn ht ac ops _ _ ?_
  exact ⟨rfl, rfl, rfl, rfl, List.Perm.refl _, heapProp_nil less,
    fun _ => heapProp_nil less, rfl, fun _ => rfl⟩

theorem ltComp_tieEq (T : Type) [LinearOrder T] :
    TieEq (fun a b : T => decide (a < b)) := by
  intro a b h1 h2
  rw [decide_eq_false_iff_not, not_lt] at h1 h2
  exact le_antisymm h2 h1

/-- Witness for the amended C3 on a concrete run. -/
theorem c3_amended_witness :
    (OptimizedHeap.runOps (fun n => n + 1)
      (freshOH (fun a b : ℕ => decide (a < b)) 2 true false (fun c => c * 2))
      [.ins 5, .ins 3, .ext, .ins 1, .ext, .ext]).1 =
    (OptimizedHeap.runOps (fun n => n + 1)
      (freshOH (fun a b : ℕ => decide (a < b)) 2 true true (fun c => c * 2))
      [.ins 5, .ins 3, .ext, .ins 1, .ext, .ext]).1 :=
  c3_amended (fun a b : ℕ => decide (a < b)) (ltComp_asymm ℕ) (ltComp_negTrans ℕ)
    (ltComp_tieEq ℕ) (fun n => n + 1) 2 true (fun c => c * 2)
    [.ins 5, .ins 3, .ext, .ins 1, .ext, .ext]

/-- Witness for C1: the generic part applied at ℕ and [2, 1], plus the concrete
scenario conjunct. -/
theorem c1_sorted_extraction_witness :
    ((drainN 2 ((NewMinHeap ℕ).insertAll [2, 1])).1.map Prod.fst).Pairwise (· ≤ ·) ∧
    (drainN 5 ((NewMinHeap ℕ).insertAll [5, 3, 8, 1, 2])).1
      = [(1, true), (2, true), (3, true), (5, true), (8, true)] :=
  ⟨((c1_sorted_extraction.1 ℕ [2, 1]).1).2.1, c1_sorted_extraction.2.1⟩

end HeapVer

